import Mathlib

/-!
# The toy ring-LWE signature of `fake_crypto.h` and the forger of `solution.h`

A shallow embedding of the C++ sources, followed by theorems about it.

Modelling conventions.

* `vector_t = std::array<int, 128>` is a function `Fin 128 → Int`.
* `int` is 32 bits wide. The results of `+`, `-`, `*` and of the unary minus are reduced to
  `[-2^31, 2^31)` by `wrap`, the two's complement wraparound of the usual builds.
  `%` and `/` on `int` truncate toward zero (`Int.tmod`, `Int.tdiv`).
* An operation that does not return a value returns `none`: a division or remainder by zero,
  the division and the remainder `INT_MIN / -1`, `INT_MIN % -1`, whose quotient `int` cannot
  hold, and a draw from a `std::uniform_int_distribution` whose range is empty.
* A message (`std::string`) is the list of its `char` values as they are promoted to `int`:
  `-128 .. 127` where plain `char` is signed (x86-64), `0 .. 255` where it is unsigned.
* `size_t` is 64 bits wide; mixed `int`/`size_t` arithmetic is carried out in `size_t`
  (modulo `2^64`), and storing a `size_t` into an `int` keeps the low 32 bits in two's complement.
* The pseudo-random engine is an oracle: the value of the `k`-th call of the generator closure,
  read through the distribution parameters that are current at the time of the call.
-/

namespace FakeCrypto

/-! ## Vectors -/

/-- `using vector_t = std::array<int, 128>`. -/
abbrev vector_t := Fin 128 → Int

/-- The value an `int` holds after an arithmetic result `x`: the representative of `x`
modulo `2^32` in `[-2^31, 2^31)`. -/
def wrap (x : Int) : Int := (x + 2 ^ 31) % 2 ^ 32 - 2 ^ 31

/-- `vector_t operator+(const vector_t &a, const vector_t &b)`. -/
def operator_add (a b : vector_t) : vector_t := fun i => wrap (a i + b i)

/-- `vector_t operator-(const vector_t &a, const vector_t &b)`. -/
def operator_sub (a b : vector_t) : vector_t := fun i => wrap (a i - b i)

/-- `vector_t operator*(const vector_t &a, const vector_t &b)`: the element-wise product. -/
def operator_mul (a b : vector_t) : vector_t := fun i => wrap (a i * b i)

/-- One coordinate of `operator%`: `a[i] % mod` when `a[i] >= 0`, else `mod - ((-a[i]) % mod)`,
with the truncating `%` of C++ and `int` results for the negation and the subtraction. -/
def modCoord (x mod : Int) : Int :=
  if x ≥ 0 then Int.tmod x mod else wrap (mod - Int.tmod (wrap (-x)) mod)

/-- `vector_t operator%(const vector_t &a, int mod)`. Both branches of the loop body take a
remainder by `mod`, so `mod = 0` is a division by zero; with `mod = -1` a coordinate
`INT_MIN` leads to the remainder `INT_MIN % -1`. -/
def operator_mod (a : vector_t) (mod : Int) : Option vector_t :=
  if mod = 0 ∨ (mod = -1 ∧ ∃ i, a i = -2 ^ 31) then none
  else some (fun i => modCoord (a i) mod)

/-- `vector_t operator/(const vector_t &a, const vector_t &b)`: truncating division at every
coordinate, a fault as soon as one divisor is zero or one quotient is `INT_MIN / -1`
(`INT_MIN = -2^31`), which does not fit in `int`. -/
def operator_div (a b : vector_t) : Option vector_t :=
  if ∃ i, b i = 0 ∨ (a i = -2 ^ 31 ∧ b i = -1) then none
  else some (fun i => Int.tdiv (a i) (b i))

/-- The test `std::find_if(z.begin(), z.end(), [](int x) { return x != 0; }) == z.end()`. -/
def allZero (z : vector_t) : Bool := decide (∀ i, z i = 0)

/-- Every coordinate of `v` lies in `[-B, B]`. -/
def Bounded (B : Int) (v : vector_t) : Prop := ∀ i, -B ≤ v i ∧ v i ≤ B

/-! ## Keys -/

/-- `class RWEPublicKey`. -/
structure RWEPublicKey where
  module_ : Int
  ASEVector_ : vector_t
  AVector_ : vector_t

/-- `class RWEPrivateKey`. -/
structure RWEPrivateKey where
  module_ : Int
  SVector_ : vector_t
  EVector_ : vector_t
  AVector_ : vector_t

/-! ## The digest -/

/-- Conversion of an `int` to `size_t`: the residue modulo `2^64`. -/
def toSizeT (x : Int) : Nat := (x % 2 ^ 64).toNat

/-- Conversion of a `size_t` to `int`: the low 32 bits, read in two's complement. -/
def toInt (n : Nat) : Int :=
  if n % 2 ^ 32 < 2 ^ 31 then ((n % 2 ^ 32 : Nat) : Int) else ((n % 2 ^ 32 : Nat) : Int) - 2 ^ 32

/-- The divisor `string[i] % 32 + 1`, computed in `int` and converted to `size_t`. -/
def hashDivisor (ch : Int) : Nat := toSizeT (Int.tmod ch 32 + 1)

/-- The value `(static_cast<int>(string[i]) * i) % (string[i] % 32 + 1)`, computed in `size_t`;
a fault when the divisor is zero. -/
def hashTerm (ch : Int) (i : Nat) : Option Nat :=
  if hashDivisor ch = 0 then none else some ((toSizeT ch * i % 2 ^ 64) % hashDivisor ch)

/-- The index `i % 128` of the loop body. -/
def hashIndex (i : Nat) : Fin 128 := ⟨i % 128, Nat.mod_lt i (by decide)⟩

/-- One iteration of the second loop of `ComputeSimpleHash`:
`result_hash[i % 128] += (static_cast<int>(string[i]) * i) % (string[i] % 32 + 1)`. -/
def hashStep (result_hash : vector_t) (ch : Int) (i : Nat) : Option vector_t :=
  (hashTerm ch i).map fun t =>
    Function.update result_hash (hashIndex i)
      (toInt ((toSizeT (result_hash (hashIndex i)) + t) % 2 ^ 64))

/-- The second loop of `ComputeSimpleHash`, from position `i` on. -/
def hashLoop : List Int → Nat → vector_t → Option vector_t
  | [], _, result_hash => some result_hash
  | ch :: rest, i, result_hash => (hashStep result_hash ch i).bind (hashLoop rest (i + 1))

/-- `vector_t ComputeSimpleHash(const std::string &string)`. -/
def ComputeSimpleHash (string : List Int) : Option vector_t :=
  hashLoop string 0 (fun _ => 1)

/-! ## Randomness -/

/-- The parameters `(a, b)` of a `std::uniform_int_distribution<int>`. -/
structure uniform_int_distribution where
  a : Int
  b : Int

/-- The engine `std::mt19937 mt(rd())` as an oracle: `mt d k` is the value produced by the
`k`-th call `uniform_distribution(mt)` when the distribution object holds the parameters `d`. -/
abbrev mt19937 := uniform_int_distribution → Nat → Int

/-- The closure `[&uniform_distribution, &mt]() { return uniform_distribution(mt); }`.
Both captures are by reference, so a call reads the parameters the distribution object
holds when the call is made. With an empty range `a > b` the call does not return. -/
def generator (uniform_distribution : uniform_int_distribution) (mt : mt19937) (k : Nat) :
    Option Int :=
  if uniform_distribution.a ≤ uniform_distribution.b then some (mt uniform_distribution k)
  else none

/-- `std::generate(v.begin(), v.end(), generator)`: the 128 coordinates are the draws
`first, first + 1, ...` of the engine; nothing is returned when the range is empty. -/
def generate (uniform_distribution : uniform_int_distribution) (mt : mt19937) (first : Nat) :
    Option vector_t :=
  if uniform_distribution.a ≤ uniform_distribution.b then
    some (fun i => mt uniform_distribution (first + i))
  else none

/-- A source whose draws lie in the range of the distribution it is read through
(the guarantee of `std::uniform_int_distribution` for `a ≤ b`). -/
def InRange (mt : mt19937) : Prop :=
  ∀ (d : uniform_int_distribution) (k : Nat), d.a ≤ d.b → d.a ≤ mt d k ∧ mt d k ≤ d.b

/-! ## Key generation, signing, verification -/

/-- `std::tuple<RWEPublicKey, RWEPrivateKey> GenerateKeyPair(int module)`. The three calls of
`std::generate` consume the draws `0..127`, `128..255` and `256..383` of the engine.
The bounds `-(module / 2) + 1` and `module / 2` cannot overflow (`|module / 2| ≤ 2^30`). -/
def GenerateKeyPair (module : Int) (mt : mt19937) : Option (RWEPublicKey × RWEPrivateKey) :=
  let uniform_distribution : uniform_int_distribution :=
    ⟨-(Int.tdiv module 2) + 1, Int.tdiv module 2⟩
  (generate uniform_distribution mt 0).bind fun s_vector =>
  (generate uniform_distribution mt 128).bind fun e_vector =>
  let uniform_distribution : uniform_int_distribution := ⟨1, module⟩
  (generate uniform_distribution mt 256).bind fun a_vector =>
  (operator_mod (operator_add (operator_mul a_vector s_vector) e_vector) module).map
    fun ase_vector =>
      (RWEPublicKey.mk module ase_vector a_vector,
       RWEPrivateKey.mk module s_vector e_vector a_vector)

/-- `Sign(const std::string &message, RWEPrivateKey private_key)`. -/
def Sign (message : List Int) (private_key : RWEPrivateKey) (mt : mt19937) :
    Option (vector_t × vector_t × vector_t) :=
  let s_vector := private_key.SVector_
  let e_vector := private_key.EVector_
  let a_vector := private_key.AVector_
  let module := private_key.module_
  (ComputeSimpleHash message).bind fun message_hash =>
    let uniform_distribution : uniform_int_distribution :=
      ⟨-(Int.tdiv module 2) + 1, Int.tdiv module 2⟩
    (generate uniform_distribution mt 0).bind fun y1 =>
    (generate uniform_distribution mt 128).bind fun y2 =>
    (operator_mod (operator_add (operator_mul a_vector y1) y2) module).bind fun w =>
    (operator_mod (operator_add w message_hash) module).bind fun c =>
    (operator_mod (operator_add (operator_mul s_vector c) y1) module).bind fun z1 =>
    (operator_mod (operator_add (operator_mul e_vector c) y2) module).bind fun z2 =>
    some (c, z1, z2)

/-- `bool Verify(const std::string &message, RWEPublicKey public_key, T_Sign sign)`. -/
def Verify (message : List Int) (public_key : RWEPublicKey)
    (sign : vector_t × vector_t × vector_t) : Option Bool :=
  (ComputeSimpleHash message).bind fun message_hash =>
    let module := public_key.module_
    let ase_vector := public_key.ASEVector_
    let a_vector := public_key.AVector_
    let c := sign.1
    let z1 := sign.2.1
    let z2 := sign.2.2
    if allZero z1 then some false
    else if allZero z2 then some false
    else
      let tmp := operator_sub (operator_add (operator_mul a_vector z1) z2)
        (operator_mul ase_vector c)
      (operator_mod (operator_add tmp message_hash) module).map fun r =>
        decide (∀ i, operator_sub r c i = 0)

/-- `FakeSign(const std::string& string, RWEPublicKey publicKey)` of `solution.h`. -/
def FakeSign (string : List Int) (publicKey : RWEPublicKey) :
    Option (vector_t × vector_t × vector_t) :=
  let ase := publicKey.ASEVector_
  let a := publicKey.AVector_
  let module := publicKey.module_
  (ComputeSimpleHash string).bind fun hash =>
    let c : vector_t := fun _ => 1
    let z1 : vector_t := fun _ => 1
    let z2 := operator_sub (operator_sub (operator_add (operator_mul c ase) c) hash)
      (operator_mul a z1)
    (operator_mod z2 module).map fun z2 => (c, z1, z2)

/-! ## Concrete inputs used in the examples below -/

/-- The characters of an ASCII string literal, as `char` values. -/
def ofString (s : String) : List Int := s.toList.map fun ch => (ch.toNat : Int)

/-- The vector that holds `x` at every coordinate. -/
def constVector (x : Int) : vector_t := fun _ => x

/-- A vector that starts with `-1, -5, -130` and continues with zeros. -/
def negativeSample : vector_t := fun i =>
  if i.1 = 0 then -1 else if i.1 = 1 then -5 else if i.1 = 2 then -130 else 0

/-- An engine that always yields the same value. -/
def fixedSource (v : Int) : mt19937 := fun _ _ => v

/-- An engine that always yields the upper end of the range it is read through. -/
def upperSource : mt19937 := fun d _ => d.b

/-- An engine that follows the sequence `v` wherever the current range allows it, and yields
the lower end of the range otherwise. -/
def sourceOf (v : Nat → Int) : mt19937 := fun d k =>
  if d.a ≤ v k ∧ v k ≤ d.b then v k else d.a

/-- The message `"\xFF"`: one `char` of value `-1` (plain `char` signed). -/
def ffMessage : List Int := [-1]

/-- A public key with modulus `929` whose two vectors hold `1` at every coordinate. -/
def onesKey : RWEPublicKey := ⟨929, constVector 1, constVector 1⟩

/-- The draws `s = 1`, `e = 0` (calls `128..255`), `a = 1` of a key generation. -/
def onesDraws (k : Nat) : Int := if 128 ≤ k ∧ k < 256 then 0 else 1

/-- The private key that goes with `onesKey`: modulus `929`, `s = 1`, `e = 0`, `a = 1`. -/
def onesPrivateKey : RWEPrivateKey := ⟨929, constVector 1, constVector 0, constVector 1⟩

/-- The message `"aa\xFE"`: two letters `a` and one `char` of value `-2`. -/
def feMessage : List Int := [97, 97, -2]

/-- The draws `s = 0`, `e = 0`, `a = 2` of a key generation with modulus `2`. -/
def evenDraws (k : Nat) : Int := if k < 256 then 0 else 2

/-- Signing draws that are all `1`. -/
def unitDraws (_ : Nat) : Int := 1

/-- A public key with the largest `int` modulus `2147483647` and `ase = a = 1`. -/
def maxKey : RWEPublicKey := ⟨2147483647, constVector 1, constVector 1⟩

/-- A private key with the largest `int` modulus `2147483647`, `s = e = 0` and `a = 1`. -/
def maxPrivateKey : RWEPrivateKey := ⟨2147483647, constVector 0, constVector 0, constVector 1⟩

/-- The public key that matches `maxPrivateKey`: `ase = mod(a*s + e, m) = 0`. -/
def maxPublicKey : RWEPublicKey := ⟨2147483647, constVector 0, constVector 1⟩

/-- Signing draws with `y1[1] = y2[1] = -1` (calls `1` and `129`) and `1` elsewhere. -/
def bindingDraws (k : Nat) : Int := if k = 1 ∨ k = 129 then -1 else 1

/-- A private key with modulus `65000`, `s = 0`, `e = -1` and `a = 1`. -/
def wideningPrivateKey : RWEPrivateKey :=
  ⟨65000, constVector 0, constVector (-1), constVector 1⟩

/-- The public key that matches `wideningPrivateKey`: `ase = mod(a*s + e, m) = 64999`. -/
def wideningPublicKey : RWEPublicKey := ⟨65000, constVector 64999, constVector 1⟩

/-- Signing draws `y1 = 1` (calls `0..127`) and `y2 = -3`. -/
def wideningDraws (k : Nat) : Int := if k < 128 then 1 else -3

/-! ## The specification's operations over the mathematical integers -/

/-- The reduction `mod(a, m)[i]` as the specification words it, over the integers:
`a mod m` when `a >= 0`, otherwise `m - ((-a) mod m)`. -/
def specMod (x m : Int) : Int := if 0 ≤ x then x % m else m - (-x) % m

/-! ## The digest in the words of the specification -/

/-- The sum, over the positions `i0, i0 + 1, ...` of the bytes of `message` that fall on
coordinate `j` (position modulo 128), of `(byteValue * position) mod (byteValue mod 32 + 1)`. -/
def digestSum (i0 : Nat) (message : List Int) (j : Fin 128) : Int :=
  (((message.enumFrom i0).filter (fun p => p.1 % 128 = j.1)).map
    (fun p => (p.2 * (p.1 : Int)) % (p.2 % 32 + 1))).sum

/-- The digest as the specification words it: coordinate `j` is `1` plus the sum over all
positions `i` with `i mod 128 = j` of `(b_i * i) mod (b_i mod 32 + 1)`. -/
def digestSpec (message : List Int) (j : Fin 128) : Int := 1 + digestSum 0 message j

/-- The message `"п"` in UTF-8 (bytes `0xD0 0xBF`), as signed `char` values. -/
def cyrillicMessage : List Int := [-48, -65]

/-- A private key with modulus `7`, `s = e = 0` and `a = -2` at every coordinate. -/
def negativePrivateKey : RWEPrivateKey := ⟨7, constVector 0, constVector 0, constVector (-2)⟩

/-- The public key that matches `negativePrivateKey`: `ase = mod(a*s + e, 7) = 0`. -/
def negativePublicKey : RWEPublicKey := ⟨7, constVector 0, constVector (-2)⟩

/-- The signing draws `y1 = -2` (calls `0..127`) and `y2 = 2`. -/
def negativeDraws (k : Nat) : Int := if k < 128 then -2 else 2

/-- A public key with modulus `929`, `ase = 2` and `a = 1` at every coordinate. -/
def twoKey : RWEPublicKey := ⟨929, constVector 2, constVector 1⟩

/-- The private key `GenerateKeyPair(2)` yields for the draws `evenDraws`:
`s = e = 0`, `a = 2`. -/
def evenPrivateKey : RWEPrivateKey := ⟨2, constVector 0, constVector 0, constVector 2⟩

/-- The message `"é"` in UTF-8 (bytes `0xC3 0xA9`), as signed `char` values. -/
def accentMessage : List Int := [-61, -87]

/-! # Theorems -/

/-! ## 32-bit arithmetic -/

theorem wrap_eq_self {x : Int} (h1 : -2 ^ 31 ≤ x) (h2 : x < 2 ^ 31) : wrap x = x := by
  unfold wrap
  omega

theorem wrap_lower (x : Int) : -2 ^ 31 ≤ wrap x := by
  unfold wrap
  omega

theorem wrap_upper (x : Int) : wrap x < 2 ^ 31 := by
  unfold wrap
  omega

/-! ## The reduction over the integers -/

theorem specMod_of_nonneg {x : Int} (hx : 0 ≤ x) (m : Int) : specMod x m = x % m := by
  unfold specMod
  rw [if_pos hx]

theorem specMod_of_neg {x : Int} (hx : x < 0) (m : Int) : specMod x m = m - (-x) % m := by
  unfold specMod
  rw [if_neg (by omega)]

theorem specMod_emod (x : Int) (m : Int) : specMod x m % m = x % m := by
  rcases le_or_lt 0 x with hx | hx
  · rw [specMod_of_nonneg hx, Int.emod_emod_of_dvd _ (dvd_refl m)]
  · rw [specMod_of_neg hx]
    have h1 : (-x) % m = -x - m * ((-x) / m) := by
      have := Int.emod_add_ediv (-x) m
      linarith
    rw [h1]
    have : m - (-x - m * (-x / m)) = x + m * (1 + (-x) / m) := by ring
    rw [this, Int.add_mul_emod_self_left]

theorem specMod_modEq (x : Int) (m : Int) : specMod x m ≡ x [ZMOD m] :=
  specMod_emod x m

theorem specMod_nonneg (x : Int) {m : Int} (hm : 0 < m) : 0 ≤ specMod x m := by
  rcases le_or_lt 0 x with hx | hx
  · rw [specMod_of_nonneg hx]; exact Int.emod_nonneg _ hm.ne'
  · rw [specMod_of_neg hx]
    have := Int.emod_lt_of_pos (-x) hm
    omega

theorem specMod_le (x : Int) {m : Int} (hm : 0 < m) : specMod x m ≤ m := by
  rcases le_or_lt 0 x with hx | hx
  · rw [specMod_of_nonneg hx]; exact (Int.emod_lt_of_pos _ hm).le
  · rw [specMod_of_neg hx]
    have := Int.emod_nonneg (-x) hm.ne'
    omega

theorem specMod_lt_of_nonneg {x m : Int} (hx : 0 ≤ x) (hm : 0 < m) : specMod x m < m := by
  rw [specMod_of_nonneg hx]; exact Int.emod_lt_of_pos _ hm

theorem specMod_pos_of_neg {x m : Int} (hx : x < 0) (hm : 0 < m) : 0 < specMod x m := by
  rw [specMod_of_neg hx]
  have := Int.emod_lt_of_pos (-x) hm
  omega

theorem specMod_of_neg_dvd {x m : Int} (hx : x < 0) (hd : m ∣ x) : specMod x m = m := by
  rw [specMod_of_neg hx, Int.emod_eq_zero_of_dvd ((Int.dvd_neg).2 hd)]
  simp

theorem specMod_of_not_dvd {x m : Int} (hm : 0 < m) (hd : ¬ m ∣ x) :
    specMod x m = x % m := by
  have h1 := specMod_emod x m
  have h2 := specMod_nonneg x hm
  have h3 := specMod_le x hm
  have h4 : specMod x m ≠ m := by
    intro h
    rw [h, Int.emod_self] at h1
    exact hd (Int.dvd_of_emod_eq_zero h1.symm)
  rw [← h1, Int.emod_eq_of_lt h2 (lt_of_le_of_ne h3 h4)]

/-! ## The modulo operator -/

/-- On an `int` other than `INT_MIN` and a modulus `0 < m < 2^31` the operator computes the
reduction of the specification: none of its steps overflows. -/
theorem modCoord_eq_specMod {x m : Int} (hx1 : -2 ^ 31 < x) (hx2 : x < 2 ^ 31)
    (hm : 0 < m) (hm2 : m < 2 ^ 31) : modCoord x m = specMod x m := by
  unfold modCoord
  rcases le_or_lt 0 x with hx | hx
  · rw [if_pos (show x ≥ 0 from hx), Int.tmod_eq_emod hx hm.le, specMod_of_nonneg hx]
  · have hw : wrap (-x) = -x := wrap_eq_self (by omega) (by omega)
    rw [if_neg (by omega), hw, Int.tmod_eq_emod (by omega) hm.le, specMod_of_neg hx]
    have h1 := Int.emod_nonneg (-x) hm.ne'
    have h2 := Int.emod_lt_of_pos (-x) hm
    exact wrap_eq_self (by omega) (by omega)

theorem operator_mod_eq_some (a : vector_t) {m : Int} (hm : 0 < m) :
    operator_mod a m = some (fun i => modCoord (a i) m) := by
  unfold operator_mod
  rw [if_neg]
  rintro (h | ⟨h, -⟩) <;> omega

/-- C6, evaluated where it fails: the vector whose coordinates are all `-4`, reduced modulo `4`,
has every coordinate equal to `4`, which is outside `[0, 4)`. -/
theorem operator_mod_negative_multiple :
    ∃ r, operator_mod (constVector (-4)) 4 = some r ∧ ∀ i, r i = 4 ∧ ¬ r i < 4 := by
  refine ⟨constVector 4, ?_, fun i => ⟨rfl, ?_⟩⟩
  · rw [operator_mod_eq_some _ (by decide)]
    have : modCoord (-4) 4 = 4 := by decide
    show some (fun _ => modCoord (-4) 4) = some (fun _ => (4 : Int))
    rw [this]
  · show ¬ (4 : Int) < 4
    decide

/-- C7, where it fails: at the `int` value `INT_MIN = -2^31` and modulus `3` the negation
`-a[i]` overflows back to `INT_MIN`, `INT_MIN % 3` is `-2`, and the operator returns
`3 - (-2) = 5`: not congruent to `-2^31` modulo `3`, not the least non-negative residue `1`
although `3` does not divide `-2^31`, and not in `[0, 3]`. -/
theorem operator_mod_int_min :
    (0 : Int) < 3 ∧ ∃ r, operator_mod (constVector (-2 ^ 31)) 3 = some r ∧
      ∀ i, r i = 5 ∧ ¬ (r i ≡ constVector (-2 ^ 31) i [ZMOD 3]) ∧
        ¬ ((3 : Int) ∣ constVector (-2 ^ 31) i) ∧ r i ≠ constVector (-2 ^ 31) i % 3 := by
  have h5 : modCoord (-2 ^ 31) 3 = 5 := by decide
  refine ⟨by decide, constVector 5, ?_, fun i => ⟨rfl, ?_, ?_, ?_⟩⟩
  · rw [operator_mod_eq_some _ (by decide)]
    show some (fun _ => modCoord (-2 ^ 31) 3) = some (fun _ => (5 : Int))
    rw [h5]
  · show ¬ ((5 : Int) ≡ -2 ^ 31 [ZMOD 3])
    decide
  · show ¬ ((3 : Int) ∣ -2 ^ 31)
    decide
  · show (5 : Int) ≠ -2 ^ 31 % 3
    decide

/-- C7, amended: for a modulus `0 < m < 2^31` and a vector of `int` values none of which is
`INT_MIN = -2^31`, the vector `mod(a, m)` is defined, every coordinate is congruent to `a[i]`
modulo `m`, it is the least non-negative residue of `a[i]` when `a[i] >= 0` or `m` does not
divide `a[i]`, and it is `m` itself when `a[i] < 0` and `m` divides `a[i]`. -/
theorem operator_mod_exact_value (m : Int) (hm : 0 < m) (hm2 : m < 2 ^ 31) (a : vector_t)
    (ha : ∀ i, -2 ^ 31 < a i ∧ a i < 2 ^ 31) :
    ∃ r, operator_mod a m = some r ∧ ∀ i,
      r i ≡ a i [ZMOD m] ∧
      ((0 ≤ a i ∨ ¬ m ∣ a i) → r i = a i % m ∧ 0 ≤ r i ∧ r i < m) ∧
      ((a i < 0 ∧ m ∣ a i) → r i = m) := by
  refine ⟨fun i => modCoord (a i) m, operator_mod_eq_some a hm, fun i => ?_⟩
  show modCoord (a i) m ≡ a i [ZMOD m] ∧
      ((0 ≤ a i ∨ ¬ m ∣ a i) → modCoord (a i) m = a i % m ∧ 0 ≤ modCoord (a i) m
        ∧ modCoord (a i) m < m) ∧
      ((a i < 0 ∧ m ∣ a i) → modCoord (a i) m = m)
  rw [modCoord_eq_specMod (ha i).1 (ha i).2 hm hm2]
  refine ⟨specMod_modEq (a i) m, ?_, ?_⟩
  · intro h
    have key : specMod (a i) m = a i % m := by
      rcases h with h | h
      · exact specMod_of_nonneg h m
      · exact specMod_of_not_dvd hm h
    rw [key]
    exact ⟨rfl, Int.emod_nonneg _ hm.ne', Int.emod_lt_of_pos _ hm⟩
  · rintro ⟨h1, h2⟩
    exact specMod_of_neg_dvd h1 h2

/-- C7, amended, at the coordinates `-1, -5, -130` with modulus `4`: the results are
`3, 3, 2`. -/
theorem operator_mod_exact_value_witness :
    (0 : Int) < 4 ∧ (4 : Int) < 2 ^ 31 ∧
    (∀ i, -2 ^ 31 < negativeSample i ∧ negativeSample i < 2 ^ 31) ∧
    ∃ r, operator_mod negativeSample 4 = some r ∧ r 0 = 3 ∧ r 1 = 3 ∧ r 2 = 2 := by
  have hs : ∀ i, -2 ^ 31 < negativeSample i ∧ negativeSample i < 2 ^ 31 := by
    intro i
    unfold negativeSample
    split_ifs <;> decide
  obtain ⟨r, hr, h⟩ := operator_mod_exact_value 4 (by decide) (by decide) negativeSample hs
  refine ⟨by decide, by decide, hs, r, hr, ?_, ?_, ?_⟩
  · exact ((h 0).2.1 (Or.inr (by decide))).1
  · exact ((h 1).2.1 (Or.inr (by decide))).1
  · exact ((h 2).2.1 (Or.inr (by decide))).1

/-! ## Key generation -/

theorem mul_range {a b M K : Int} (ha1 : -M ≤ a) (ha2 : a ≤ M) (hb1 : -M ≤ b) (hb2 : b ≤ M)
    (hM : M ≤ K) : -(K * K) ≤ a * b ∧ a * b ≤ K * K := by
  have hM0 : 0 ≤ M := by omega
  have h1 : |a * b| ≤ M * M := by
    rw [abs_mul]
    exact mul_le_mul (abs_le.2 ⟨ha1, ha2⟩) (abs_le.2 ⟨hb1, hb2⟩) (abs_nonneg _) hM0
  have h2 : M * M ≤ K * K := mul_le_mul hM hM hM0 (by omega)
  have h3 := abs_le.1 (le_trans h1 h2)
  exact h3

theorem tdiv_two_bounds {m : Int} (hm : 1 < m) :
    -(Int.tdiv m 2) + 1 ≤ Int.tdiv m 2 ∧ 0 < Int.tdiv m 2 ∧ 2 * Int.tdiv m 2 ≤ m := by
  have : Int.tdiv m 2 = m / 2 := Int.tdiv_eq_ediv (by omega) (by decide)
  omega

theorem tdiv_two_empty {m : Int} (hm : m ≤ 1) : ¬ (-(Int.tdiv m 2) + 1 ≤ Int.tdiv m 2) := by
  rcases le_or_lt 0 m with h0 | h0
  · have : Int.tdiv m 2 = m / 2 := Int.tdiv_eq_ediv h0 (by decide)
    omega
  · have h1 : Int.tdiv (-m) 2 = (-m) / 2 := Int.tdiv_eq_ediv (by omega) (by decide)
    have h2 : Int.tdiv (-m) 2 = -(Int.tdiv m 2) := Int.neg_tdiv m 2
    omega

theorem generate_eq_some {d : uniform_int_distribution} (h : d.a ≤ d.b) (mt : mt19937)
    (first : Nat) :
    generate d mt first = some (fun i : Fin 128 => mt d (first + i)) := by
  unfold generate
  rw [if_pos h]

theorem generate_eq_none {d : uniform_int_distribution} (h : ¬ d.a ≤ d.b) (mt : mt19937)
    (first : Nat) : generate d mt first = none := by
  unfold generate
  rw [if_neg h]

/-- The vector `std::generate` fills holds, at coordinate `i`, the value of the call number
`first + i` of the closure. -/
theorem generate_coord {d : uniform_int_distribution} {mt : mt19937} {first : Nat}
    {v : vector_t} (h : generate d mt first = some v) (i : Fin 128) :
    generator d mt (first + i) = some (v i) := by
  unfold generate at h
  unfold generator
  split_ifs at h ⊢ with hd
  rw [← Option.some.inj h]

/-- Filling a vector with `std::generate` returns nothing exactly when its first call of the
closure does not return. -/
theorem generate_eq_none_iff (d : uniform_int_distribution) (mt : mt19937) (first : Nat) :
    generate d mt first = none ↔ generator d mt first = none := by
  unfold generate generator
  split_ifs <;> simp

theorem GenerateKeyPair_eq_some (m : Int) (hm : 1 < m) (mt : mt19937) :
    GenerateKeyPair m mt = some
      (RWEPublicKey.mk m
        (fun i => modCoord (wrap (wrap
          (mt ⟨1, m⟩ (256 + i) * mt ⟨-(Int.tdiv m 2) + 1, Int.tdiv m 2⟩ (0 + i))
            + mt ⟨-(Int.tdiv m 2) + 1, Int.tdiv m 2⟩ (128 + i))) m)
        (fun i => mt ⟨1, m⟩ (256 + i)),
       RWEPrivateKey.mk m
        (fun i => mt ⟨-(Int.tdiv m 2) + 1, Int.tdiv m 2⟩ (0 + i))
        (fun i => mt ⟨-(Int.tdiv m 2) + 1, Int.tdiv m 2⟩ (128 + i))
        (fun i => mt ⟨1, m⟩ (256 + i))) := by
  unfold GenerateKeyPair
  have h1 : (⟨-(Int.tdiv m 2) + 1, Int.tdiv m 2⟩ : uniform_int_distribution).a
      ≤ (⟨-(Int.tdiv m 2) + 1, Int.tdiv m 2⟩ : uniform_int_distribution).b :=
    (tdiv_two_bounds hm).1
  have h2 : (⟨1, m⟩ : uniform_int_distribution).a ≤ (⟨1, m⟩ : uniform_int_distribution).b :=
    hm.le
  simp only [generate_eq_some h1, generate_eq_some h2, Option.some_bind,
    operator_mod_eq_some _ (show (0 : Int) < m by omega), Option.map_some']
  rfl

theorem GenerateKeyPair_eq_none (m : Int) (hm : m ≤ 1) (mt : mt19937) :
    GenerateKeyPair m mt = none := by
  unfold GenerateKeyPair
  have h1 : ¬ (⟨-(Int.tdiv m 2) + 1, Int.tdiv m 2⟩ : uniform_int_distribution).a
      ≤ (⟨-(Int.tdiv m 2) + 1, Int.tdiv m 2⟩ : uniform_int_distribution).b :=
    tdiv_two_empty hm
  simp only [generate_eq_none h1, Option.none_bind]

theorem InRange_upperSource : InRange upperSource := by
  intro d k h
  exact ⟨h, le_refl _⟩

theorem InRange_sourceOf (v : Nat → Int) : InRange (sourceOf v) := by
  intro d k h
  unfold sourceOf
  split_ifs with hv
  · exact hv
  · exact ⟨le_refl _, h⟩

set_option maxRecDepth 100000 in
/-- C8, where it fails. With modulus `0`, `1` or `-5` the range `[-(m/2)+1, m/2]` of the first
distribution is empty, the first draw does not return and no key pair is produced. With
modulus `2147483647` and the engine that always yields the upper end of its range
(`s = e = 1073741823`, `a = 2147483647`, all within range) the product `a*s` overflows and the
stored `aseVector[0]` is `-2147483648`, while `mod(a*s + e, m)` over the integers is
`1073741823`. -/
theorem GenerateKeyPair_no_key_pair :
    GenerateKeyPair 0 (fixedSource 1) = none ∧ GenerateKeyPair 1 (fixedSource 1) = none ∧
    GenerateKeyPair (-5) (fixedSource 1) = none ∧
    InRange upperSource ∧
    (GenerateKeyPair 2147483647 upperSource).map
      (fun k => (k.1.ASEVector_ 0, k.2.AVector_ 0, k.2.SVector_ 0, k.2.EVector_ 0))
        = some (-2147483648, 2147483647, 1073741823, 1073741823) ∧
    specMod (2147483647 * 1073741823 + 1073741823) 2147483647 = 1073741823 :=
  ⟨GenerateKeyPair_eq_none 0 (by decide) _, GenerateKeyPair_eq_none 1 (by decide) _,
    GenerateKeyPair_eq_none (-5) (by decide) _, InRange_upperSource, by decide, by decide⟩

/-- C8, amended: for every modulus `m > 1` and every draws of the random source,
`GenerateKeyPair(m)` returns a pair `(pk, sk)` with `pk.modulus = sk.modulus = m`,
`pk.aVector = sk.aVector` and `pk.aseVector = mod(sk.aVector * sk.sVector + sk.eVector, m)`,
the product and the sum being those of `int`; when moreover `m <= 2^15` and the draws lie
within the ranges of their distributions, this is the reduction of the exact integer
`a*s + e`. -/
theorem GenerateKeyPair_consistent (m : Int) (hm : 1 < m) (mt : mt19937) :
    ∃ pk sk, GenerateKeyPair m mt = some (pk, sk) ∧
      pk.module_ = m ∧ sk.module_ = m ∧ pk.AVector_ = sk.AVector_ ∧
      operator_mod (operator_add (operator_mul sk.AVector_ sk.SVector_) sk.EVector_) m
        = some pk.ASEVector_ ∧
      (m ≤ 2 ^ 15 → InRange mt → ∀ i, pk.ASEVector_ i
        = specMod (sk.AVector_ i * sk.SVector_ i + sk.EVector_ i) m) := by
  have hm0 : (0 : Int) < m := by omega
  refine ⟨_, _, GenerateKeyPair_eq_some m hm mt, rfl, rfl, rfl, ?_, ?_⟩
  · rw [operator_mod_eq_some _ hm0]
    rfl
  · intro hm2 hmt i
    obtain ⟨hd, ht0, ht2⟩ := tdiv_two_bounds hm
    have hs := hmt ⟨-(Int.tdiv m 2) + 1, Int.tdiv m 2⟩ (0 + i) hd
    have he := hmt ⟨-(Int.tdiv m 2) + 1, Int.tdiv m 2⟩ (128 + i) hd
    have ha := hmt ⟨1, m⟩ (256 + i) hm.le
    simp only at hs he ha
    have hp := mul_range (a := mt ⟨1, m⟩ (256 + i))
      (b := mt ⟨-(Int.tdiv m 2) + 1, Int.tdiv m 2⟩ (0 + i)) (M := m) (K := 2 ^ 15)
      (by omega) (by omega) (by omega) (by omega) hm2
    have hK : (2 : Int) ^ 15 * 2 ^ 15 = 2 ^ 30 := by norm_num
    rw [hK] at hp
    show modCoord (wrap (wrap
      (mt ⟨1, m⟩ (256 + i) * mt ⟨-(Int.tdiv m 2) + 1, Int.tdiv m 2⟩ (0 + i))
        + mt ⟨-(Int.tdiv m 2) + 1, Int.tdiv m 2⟩ (128 + i))) m = _
    rw [wrap_eq_self (x := mt ⟨1, m⟩ (256 + i) * _) (by omega) (by omega),
      wrap_eq_self (by omega) (by omega)]
    exact modCoord_eq_specMod (by omega) (by omega) hm0 (by omega)

/-- C8, amended, at modulus `929` with the engine that yields the upper end of its range. -/
theorem GenerateKeyPair_consistent_witness :
    (1 : Int) < 929 ∧ ∃ pk sk, GenerateKeyPair 929 upperSource = some (pk, sk) ∧
      pk.module_ = 929 ∧ sk.module_ = 929 ∧ pk.AVector_ = sk.AVector_ ∧
      operator_mod (operator_add (operator_mul sk.AVector_ sk.SVector_) sk.EVector_) 929
        = some pk.ASEVector_ ∧
      ((929 : Int) ≤ 2 ^ 15 → InRange upperSource → ∀ i, pk.ASEVector_ i
        = specMod (sk.AVector_ i * sk.SVector_ i + sk.EVector_ i) 929) :=
  ⟨by decide, GenerateKeyPair_consistent 929 (by decide) upperSource⟩

/-- C9, where it fails: the engine that always yields the upper end of the current range is
within range at every call, and with modulus `929` it gives `aVector[0] = 929`, outside
`[-(929/2)+1, 929/2] = [-463, 464]`. -/
theorem GenerateKeyPair_aVector_out_of_sVector_range :
    (1 : Int) < 929 ∧ InRange upperSource ∧
      ∃ pk sk, GenerateKeyPair 929 upperSource = some (pk, sk) ∧ pk.AVector_ 0 = 929 ∧
        ¬ (-(Int.tdiv 929 2) + 1 ≤ pk.AVector_ 0 ∧ pk.AVector_ 0 ≤ Int.tdiv 929 2) := by
  refine ⟨by decide, InRange_upperSource, _, _, GenerateKeyPair_eq_some 929 (by decide) _, rfl, ?_⟩
  show ¬ (-(Int.tdiv 929 2) + 1 ≤ (929 : Int) ∧ (929 : Int) ≤ Int.tdiv 929 2)
  decide

/-- C9, amended: for every modulus `m > 1` and every engine whose draws lie within the range
the distribution object holds at the time of the call, `GenerateKeyPair(m)` returns a key
pair whose aVector has every coordinate in `[1, m]`, while every coordinate of sVector and
eVector lies in `[-(m/2)+1, m/2]`. -/
theorem GenerateKeyPair_ranges (m : Int) (hm : 1 < m) (mt : mt19937) (hmt : InRange mt) :
    ∃ pk sk, GenerateKeyPair m mt = some (pk, sk) ∧
      (∀ i, 1 ≤ pk.AVector_ i ∧ pk.AVector_ i ≤ m) ∧
      (∀ i, 1 ≤ sk.AVector_ i ∧ sk.AVector_ i ≤ m) ∧
      (∀ i, -(Int.tdiv m 2) + 1 ≤ sk.SVector_ i ∧ sk.SVector_ i ≤ Int.tdiv m 2) ∧
      (∀ i, -(Int.tdiv m 2) + 1 ≤ sk.EVector_ i ∧ sk.EVector_ i ≤ Int.tdiv m 2) := by
  have h2 : -(Int.tdiv m 2) + 1 ≤ Int.tdiv m 2 := (tdiv_two_bounds hm).1
  refine ⟨_, _, GenerateKeyPair_eq_some m hm mt, ?_, ?_, ?_, ?_⟩
  · intro i; exact hmt ⟨1, m⟩ _ hm.le
  · intro i; exact hmt ⟨1, m⟩ _ hm.le
  · intro i; exact hmt ⟨_, _⟩ _ h2
  · intro i; exact hmt ⟨_, _⟩ _ h2

/-- C9, amended, at modulus `929` with the engine that yields the upper end of the range. -/
theorem GenerateKeyPair_ranges_witness :
    (1 : Int) < 929 ∧ InRange upperSource ∧
    ∃ pk sk, GenerateKeyPair 929 upperSource = some (pk, sk) ∧
      (∀ i, 1 ≤ pk.AVector_ i ∧ pk.AVector_ i ≤ 929) ∧
      (∀ i, 1 ≤ sk.AVector_ i ∧ sk.AVector_ i ≤ 929) ∧
      (∀ i, -(Int.tdiv 929 2) + 1 ≤ sk.SVector_ i ∧ sk.SVector_ i ≤ Int.tdiv 929 2) ∧
      (∀ i, -(Int.tdiv 929 2) + 1 ≤ sk.EVector_ i ∧ sk.EVector_ i ≤ Int.tdiv 929 2) :=
  ⟨by decide, InRange_upperSource,
    GenerateKeyPair_ranges 929 (by decide) upperSource InRange_upperSource⟩

/-! ## Verification -/

theorem allZero_eq_true_iff (z : vector_t) : allZero z = true ↔ ∀ i, z i = 0 := by
  unfold allZero
  exact decide_eq_true_iff

theorem Verify_of_hash {message : List Int} {h : vector_t}
    (hh : ComputeSimpleHash message = some h) (pk : RWEPublicKey) (c z1 z2 : vector_t) :
    Verify message pk (c, z1, z2) =
      if allZero z1 then some false
      else if allZero z2 then some false
      else (operator_mod (operator_add (operator_sub (operator_add
          (operator_mul pk.AVector_ z1) z2) (operator_mul pk.ASEVector_ c)) h) pk.module_).map
        fun r => decide (∀ i, operator_sub r c i = 0) := by
  unfold Verify
  rw [hh]
  rfl

theorem Verify_of_hash_none {message : List Int} (hh : ComputeSimpleHash message = none)
    (pk : RWEPublicKey) (sign : vector_t × vector_t × vector_t) :
    Verify message pk sign = none := by
  unfold Verify
  rw [hh]
  rfl

theorem Verify_allZero_z1 {message : List Int} {h : vector_t}
    (hh : ComputeSimpleHash message = some h) (pk : RWEPublicKey) (c z1 z2 : vector_t)
    (hz : ∀ i, z1 i = 0) : Verify message pk (c, z1, z2) = some false := by
  rw [Verify_of_hash hh, if_pos ((allZero_eq_true_iff z1).2 hz)]

theorem Verify_allZero_z2 {message : List Int} {h : vector_t}
    (hh : ComputeSimpleHash message = some h) (pk : RWEPublicKey) (c z1 z2 : vector_t)
    (hz : ∀ i, z2 i = 0) : Verify message pk (c, z1, z2) = some false := by
  rw [Verify_of_hash hh, if_pos ((allZero_eq_true_iff z2).2 hz)]
  split_ifs <;> rfl

theorem ComputeSimpleHash_ffMessage : ComputeSimpleHash ffMessage = none := by
  decide

/-- C4, evaluated where it fails: on the message `"\xFF"` (one `char` of value `-1`) `Verify`
computes the digest before it looks at `z1` and `z2`; the digest divides by
`string[0] % 32 + 1 = 0`, so `Verify` faults instead of returning false, both for an
all-zero `z1` and for an all-zero `z2`. -/
theorem Verify_trivial_signature_faults :
    Verify ffMessage onesKey (constVector 1, constVector 0, constVector 1) = none ∧
    Verify ffMessage onesKey (constVector 1, constVector 1, constVector 0) = none :=
  ⟨Verify_of_hash_none ComputeSimpleHash_ffMessage _ _,
   Verify_of_hash_none ComputeSimpleHash_ffMessage _ _⟩

/-- C10, evaluated where it fails: the message `"\xFF"` (one `char` of value `-1`) has no
digest, because `string[0] % 32 + 1` is `0` and the remainder by it is a division by zero;
and the message `"a\xFE"` (second `char` of value `-2`, byte value `254`) has digest `-1` at
coordinate `1`, where the formula of the specification gives `7` for the byte value `254`
and `30` for the value `-2`. -/
theorem ComputeSimpleHash_faults :
    (hashDivisor (-1) = 0 ∧ ComputeSimpleHash [-1] = none) ∧
    ((ComputeSimpleHash [97, -2]).map (fun h => h 1) = some (-1) ∧
      digestSpec [97, 254] 1 = 7 ∧ digestSpec [97, -2] 1 = 30) := by
  decide

/-! ## The digest on non-negative characters -/

theorem toSizeT_natCast (n : Nat) : toSizeT (n : Int) = n % 2 ^ 64 := by
  unfold toSizeT
  omega

theorem hashDivisor_natCast (n : Nat) : hashDivisor (n : Int) = n % 32 + 1 := by
  unfold hashDivisor
  have h : Int.tmod (n : Int) 32 = ((n % 32 : Nat) : Int) := by
    rw [Int.tmod_eq_emod (by omega) (by decide)]
    omega
  rw [h]
  have : (((n % 32 : Nat) : Int) + 1) = ((n % 32 + 1 : Nat) : Int) := by push_cast; rfl
  rw [this, toSizeT_natCast]
  omega

theorem hashTerm_natCast (n i : Nat) (hn : n ≤ 255) (hi : i < 2 ^ 56) :
    hashTerm (n : Int) i = some ((n * i) % (n % 32 + 1)) := by
  unfold hashTerm
  rw [hashDivisor_natCast, if_neg (by omega), toSizeT_natCast]
  have h1 : n % 2 ^ 64 = n := Nat.mod_eq_of_lt (by omega)
  have h2 : n * i < 2 ^ 64 := by
    calc n * i ≤ 255 * i := Nat.mul_le_mul_right _ hn
      _ < 2 ^ 64 := by omega
  rw [h1, Nat.mod_eq_of_lt h2]

theorem toInt_of_lt (n : Nat) (h : n < 2 ^ 31) : toInt n = n := by
  unfold toInt
  have : n % 2 ^ 32 = n := Nat.mod_eq_of_lt (by omega)
  rw [this, if_pos h]

theorem hashStep_natCast (result_hash : vector_t) (n i : Nat) (hn : n ≤ 255) (hi : i < 2 ^ 56)
    (h0 : 0 ≤ result_hash (hashIndex i)) (h1 : result_hash (hashIndex i) + 31 < 2 ^ 31) :
    hashStep result_hash (n : Int) i = some (Function.update result_hash (hashIndex i)
      (result_hash (hashIndex i) + (((n * i) % (n % 32 + 1) : Nat) : Int))) := by
  unfold hashStep
  rw [hashTerm_natCast n i hn hi]
  simp only [Option.map_some', Option.some.injEq]
  have ht : (n * i) % (n % 32 + 1) ≤ 31 := by
    have := Nat.mod_lt (n * i) (show 0 < n % 32 + 1 by omega)
    omega
  obtain ⟨a, ha⟩ := Int.eq_ofNat_of_zero_le h0
  rw [ha] at h1 ⊢
  rw [toSizeT_natCast]
  have h2 : a % 2 ^ 64 = a := Nat.mod_eq_of_lt (by omega)
  rw [h2, Nat.mod_eq_of_lt (by omega), toInt_of_lt _ (by omega)]
  push_cast
  rfl

theorem digestSum_nil (i0 : Nat) (j : Fin 128) : digestSum i0 [] j = 0 := rfl

theorem digestSum_cons (i0 : Nat) (ch : Int) (rest : List Int) (j : Fin 128) :
    digestSum i0 (ch :: rest) j =
      (if hashIndex i0 = j then (ch * (i0 : Int)) % (ch % 32 + 1) else 0)
        + digestSum (i0 + 1) rest j := by
  unfold digestSum
  rw [List.enumFrom_cons]
  by_cases hj : hashIndex i0 = j
  · have : i0 % 128 = j.1 := by rw [← hj]; rfl
    rw [if_pos hj, List.filter_cons_of_pos (by simpa using this)]
    simp
  · have : ¬ i0 % 128 = j.1 := fun h => hj (Fin.ext h)
    rw [if_neg hj, List.filter_cons_of_neg (by simpa using this)]
    simp

theorem hashTerm_cast_bounds (n i : Nat) :
    (0 : Int) ≤ ((n : Int) * (i : Int)) % ((n : Int) % 32 + 1) ∧
      ((n : Int) * (i : Int)) % ((n : Int) % 32 + 1) ≤ 31 := by
  have h1 : (0 : Int) < (n : Int) % 32 + 1 := by omega
  have h2 := Int.emod_nonneg ((n : Int) * (i : Int)) h1.ne'
  have h3 := Int.emod_lt_of_pos ((n : Int) * (i : Int)) h1
  omega

theorem digestSum_bounds : ∀ (msg : List Int) (i0 : Nat) (j : Fin 128),
    (∀ ch ∈ msg, 0 ≤ ch) → 0 ≤ digestSum i0 msg j ∧ digestSum i0 msg j ≤ 31 * msg.length := by
  intro msg
  induction msg with
  | nil => intro i0 j _; simp [digestSum_nil]
  | cons ch rest ih =>
    intro i0 j hch
    obtain ⟨n, rfl⟩ := Int.eq_ofNat_of_zero_le (hch ch (List.mem_cons_self _ _))
    have hrest := ih (i0 + 1) j (fun c hc => hch c (List.mem_cons_of_mem _ hc))
    have hb := hashTerm_cast_bounds n i0
    rw [digestSum_cons, List.length_cons]
    push_cast
    split_ifs <;> omega

theorem hashLoop_of_nonneg : ∀ (msg : List Int) (i0 : Nat) (h0 : vector_t),
    (∀ ch ∈ msg, 0 ≤ ch ∧ ch ≤ 255) → i0 + msg.length ≤ 2 ^ 56 →
    (∀ j, 0 ≤ h0 j) → (∀ j, h0 j + 31 * msg.length < 2 ^ 31) →
    ∃ h, hashLoop msg i0 h0 = some h ∧ ∀ j, h j = h0 j + digestSum i0 msg j := by
  intro msg
  induction msg with
  | nil =>
    intro i0 h0 _ _ _ _
    exact ⟨h0, rfl, fun j => by simp [digestSum_nil]⟩
  | cons ch rest ih =>
    intro i0 h0 hch hlen hpos hbound
    obtain ⟨hc0, hc1⟩ := hch ch (List.mem_cons_self _ _)
    obtain ⟨n, rfl⟩ := Int.eq_ofNat_of_zero_le hc0
    have hn : n ≤ 255 := by omega
    rw [List.length_cons] at hlen hbound
    have hb := hashTerm_cast_bounds n i0
    have hcast : (((n * i0) % (n % 32 + 1) : Nat) : Int)
        = ((n : Int) * (i0 : Int)) % ((n : Int) % 32 + 1) := by
      push_cast
      rfl
    have hstep := hashStep_natCast h0 n i0 hn (by omega) (hpos _)
      (by have := hbound (hashIndex i0); push_cast at this; omega)
    rw [hcast] at hstep
    obtain ⟨h, hh, hform⟩ := ih (i0 + 1)
      (Function.update h0 (hashIndex i0)
        (h0 (hashIndex i0) + ((n : Int) * (i0 : Int)) % ((n : Int) % 32 + 1)))
      (fun c hc => hch c (List.mem_cons_of_mem _ hc)) (by omega)
      (by
        intro j
        by_cases hj : j = hashIndex i0
        · rw [hj, Function.update_same]; have := hpos (hashIndex i0); omega
        · rw [Function.update_noteq hj]; exact hpos j)
      (by
        intro j
        have := hbound j
        push_cast at this
        by_cases hj : j = hashIndex i0
        · rw [hj, Function.update_same]; rw [hj] at this; omega
        · rw [Function.update_noteq hj]; omega)
    refine ⟨h, ?_, ?_⟩
    · show (hashStep h0 (n : Int) i0).bind (hashLoop rest (i0 + 1)) = some h
      rw [hstep]
      exact hh
    · intro j
      rw [hform j, digestSum_cons]
      by_cases hj : j = hashIndex i0
      · rw [hj, Function.update_same, if_pos rfl]; ring
      · rw [Function.update_noteq hj, if_neg (fun h => hj h.symm)]; ring

/-- On a message whose `char` values lie in `0 .. 255` and whose length is at most `2^26`,
the digest is defined and is the one the specification describes. -/
theorem ComputeSimpleHash_eq_digestSpec (msg : List Int)
    (hch : ∀ ch ∈ msg, 0 ≤ ch ∧ ch ≤ 255) (hlen : msg.length ≤ 2 ^ 26) :
    ∃ h, ComputeSimpleHash msg = some h ∧ ∀ j, h j = digestSpec msg j := by
  obtain ⟨h, hh, hform⟩ := hashLoop_of_nonneg msg 0 (fun _ => 1) hch (by omega)
    (fun _ => show (0 : Int) ≤ 1 by decide)
    (fun _ => show (1 : Int) + 31 * (msg.length : Int) < 2 ^ 31 by omega)
  exact ⟨h, hh, fun j => hform j⟩

/-- On such a message every coordinate of the digest is at least `1`. -/
theorem ComputeSimpleHash_pos (msg : List Int)
    (hch : ∀ ch ∈ msg, 0 ≤ ch ∧ ch ≤ 255) (hlen : msg.length ≤ 2 ^ 26) :
    ∃ h, ComputeSimpleHash msg = some h ∧ ∀ j, 1 ≤ h j := by
  obtain ⟨h, hh, hform⟩ := ComputeSimpleHash_eq_digestSpec msg hch hlen
  refine ⟨h, hh, fun j => ?_⟩
  have := (digestSum_bounds msg 0 j (fun c hc => (hch c hc).1)).1
  rw [hform j]
  unfold digestSpec
  omega

/-! ## The empty message, faults of `Verify`, and division -/

/-- C11: the digest of the empty message is the all-ones vector. -/
theorem ComputeSimpleHash_empty :
    ComputeSimpleHash (ofString "") = some (constVector 1) ∧
      ∀ j : Fin 128, (ComputeSimpleHash (ofString "")).map (fun h => h j) = some 1 :=
  ⟨rfl, fun _ => rfl⟩

/-- On a message whose digest is defined and for a key with a positive modulus, `Verify`
returns a verdict. -/
theorem Verify_returns {message : List Int} {h : vector_t}
    (hh : ComputeSimpleHash message = some h) (pk : RWEPublicKey) (hm : 0 < pk.module_)
    (sign : vector_t × vector_t × vector_t) : ∃ b, Verify message pk sign = some b := by
  obtain ⟨c, z1, z2⟩ := sign
  rw [Verify_of_hash hh, operator_mod_eq_some _ hm]
  split_ifs
  · exact ⟨false, rfl⟩
  · exact ⟨false, rfl⟩
  · exact ⟨_, rfl⟩

theorem ComputeSimpleHash_cyrillicMessage : ComputeSimpleHash cyrillicMessage = none := by
  decide

/-- C12, evaluated where it fails: with the key of modulus `929 > 0` and the signature whose
three vectors are all ones, `Verify` faults on the message `"\xFF"` (one `char` of value `-1`)
and on the UTF-8 text `"п"` (`char` values `-48, -65`), because the digest takes a remainder
by `string[i] % 32 + 1`, which is `0` for the `char` values `-1`, `-33`, `-65` and `-97`. -/
theorem Verify_raises :
    0 < onesKey.module_ ∧
    Verify ffMessage onesKey (constVector 1, constVector 1, constVector 1) = none ∧
    Verify cyrillicMessage onesKey (constVector 1, constVector 1, constVector 1) = none ∧
    hashDivisor (-1) = 0 ∧ hashDivisor (-33) = 0 ∧ hashDivisor (-65) = 0 ∧
    hashDivisor (-97) = 0 :=
  ⟨by decide, Verify_of_hash_none ComputeSimpleHash_ffMessage _ _,
    Verify_of_hash_none ComputeSimpleHash_cyrillicMessage _ _,
    by decide, by decide, by decide, by decide⟩

/-- C13, where it fails: every divisor is `-1`, none is `0`, and the division of the vector
whose coordinates are all `INT_MIN = -2^31` still faults, since `INT_MIN / -1` overflows. -/
theorem operator_div_overflow :
    (∀ i, constVector (-1) i ≠ 0) ∧
      operator_div (constVector (-2 ^ 31)) (constVector (-1)) = none := by
  refine ⟨fun i => by show (-1 : Int) ≠ 0; decide, ?_⟩
  unfold operator_div
  rw [if_pos ⟨0, Or.inr ⟨rfl, rfl⟩⟩]

/-- C13, amended: `div(a, b)` fails if and only if at some coordinate `b[i]` is `0` or
`a[i] = -2^31` and `b[i] = -1`; when no coordinate is of either kind,
`div(a, b)[i] = a[i] / b[i]` with the division that truncates toward zero, at every
coordinate. -/
theorem operator_div_spec (a b : vector_t) :
    (operator_div a b = none ↔ ∃ i, b i = 0 ∨ (a i = -2 ^ 31 ∧ b i = -1)) ∧
    ((∀ i, b i ≠ 0 ∧ ¬ (a i = -2 ^ 31 ∧ b i = -1)) →
      ∃ r, operator_div a b = some r ∧ ∀ i, r i = Int.tdiv (a i) (b i)) := by
  constructor
  · unfold operator_div
    split_ifs with h
    · exact ⟨fun _ => h, fun _ => rfl⟩
    · exact ⟨fun hn => absurd hn (by simp), fun hn => absurd hn h⟩
  · intro hall
    refine ⟨fun i => Int.tdiv (a i) (b i), ?_, fun _ => rfl⟩
    unfold operator_div
    rw [if_neg]
    rintro ⟨i, hi⟩
    rcases hi with hi | hi
    · exact (hall i).1 hi
    · exact (hall i).2 hi

/-- C13, amended, at `a = -7` and `b = 2` in every coordinate: the quotient is `-3`
(truncation toward zero), not `-4`. -/
theorem operator_div_spec_witness :
    (∀ i, constVector 2 i ≠ 0 ∧ ¬ (constVector (-7) i = -2 ^ 31 ∧ constVector 2 i = -1)) ∧
    ∃ r, operator_div (constVector (-7)) (constVector 2) = some r ∧ ∀ i, r i = -3 := by
  have hall : ∀ i, constVector 2 i ≠ 0
      ∧ ¬ (constVector (-7) i = -2 ^ 31 ∧ constVector 2 i = -1) := by
    intro i
    show (2 : Int) ≠ 0 ∧ ¬ ((-7 : Int) = -2 ^ 31 ∧ (2 : Int) = -1)
    decide
  obtain ⟨r, hr, hv⟩ := (operator_div_spec (constVector (-7)) (constVector 2)).2 hall
  exact ⟨hall, r, hr, fun i => by rw [hv i]; rfl⟩

/-! ## The first byte of a message -/

/-- At position `0` the byte contributes `(ch * 0) % divisor = 0`, provided the divisor
`ch % 32 + 1` is not zero. -/
theorem hashStep_first (ch : Int) (hd : hashDivisor ch ≠ 0) :
    hashStep (fun _ => 1) ch 0 = some (fun _ => 1) := by
  unfold hashStep hashTerm
  rw [if_neg hd]
  simp only [Nat.mul_zero, Nat.zero_mod, Nat.add_zero, Option.map_some', Option.some.injEq]
  have h1 : toInt (toSizeT 1 % 2 ^ 64) = 1 := by decide
  rw [h1]
  exact Function.update_eq_self (hashIndex 0) (fun _ => (1 : Int))

theorem ComputeSimpleHash_cons (ch : Int) (rest : List Int) (hd : hashDivisor ch ≠ 0) :
    ComputeSimpleHash (ch :: rest) = hashLoop rest 1 (fun _ => 1) := by
  show (hashStep (fun _ => 1) ch 0).bind (hashLoop rest (0 + 1)) = _
  rw [hashStep_first ch hd]
  rfl

/-- Two messages that differ only in their first `char` have the same digest and the same
verdicts, provided neither first `char` makes the divisor `ch % 32 + 1` zero. -/
theorem Verify_first_char (ch ch' : Int) (rest : List Int)
    (hd : hashDivisor ch ≠ 0) (hd' : hashDivisor ch' ≠ 0) :
    ComputeSimpleHash (ch :: rest) = ComputeSimpleHash (ch' :: rest) ∧
      ∀ pk sign, Verify (ch :: rest) pk sign = Verify (ch' :: rest) pk sign := by
  have e : ComputeSimpleHash (ch :: rest) = ComputeSimpleHash (ch' :: rest) := by
    rw [ComputeSimpleHash_cons ch rest hd, ComputeSimpleHash_cons ch' rest hd']
  refine ⟨e, fun pk sign => ?_⟩
  unfold Verify
  rw [e]

set_option maxRecDepth 100000 in
/-- C17, evaluated where it fails: the messages `"a"` and `"\xFF"` are non-empty, of equal
length, and differ only in the byte at position `0`; the first has a digest and `Verify`
accepts the signature whose vectors are all ones under the key with `ase = 2`, `a = 1`,
while on the second the digest divides by `string[0] % 32 + 1 = 0` and `Verify` faults. -/
theorem first_byte_fault :
    (ComputeSimpleHash [97]).isSome = true ∧ ComputeSimpleHash [-1] = none ∧
    Verify [97] twoKey (constVector 1, constVector 1, constVector 1) = some true ∧
    Verify [-1] twoKey (constVector 1, constVector 1, constVector 1) = none := by
  decide

/-! ## Bounds on the digest -/

theorem hashIndex_eq_iff (i0 : Nat) (j : Fin 128) (hi : i0 < 128) :
    hashIndex i0 = j ↔ i0 = j.1 := by
  constructor
  · intro h
    have : (hashIndex i0).1 = j.1 := by rw [h]
    have e : (hashIndex i0).1 = i0 % 128 := rfl
    rw [e, Nat.mod_eq_of_lt hi] at this
    exact this
  · intro h
    apply Fin.ext
    show i0 % 128 = j.1
    rw [Nat.mod_eq_of_lt hi]
    exact h

theorem digestSum_outside : ∀ (msg : List Int) (i0 : Nat) (j : Fin 128),
    i0 + msg.length ≤ 128 → (j.1 < i0 ∨ i0 + msg.length ≤ j.1) → digestSum i0 msg j = 0 := by
  intro msg
  induction msg with
  | nil => intro i0 j _ _; exact digestSum_nil i0 j
  | cons ch rest ih =>
    intro i0 j hlen hj
    rw [List.length_cons] at hlen hj
    have hne : ¬ hashIndex i0 = j := by
      rw [hashIndex_eq_iff i0 j (by omega)]
      omega
    rw [digestSum_cons, if_neg hne, ih (i0 + 1) j (by omega) (by omega)]
    rfl

theorem digestSum_short : ∀ (msg : List Int) (i0 : Nat) (j : Fin 128),
    (∀ ch ∈ msg, 0 ≤ ch) → i0 + msg.length ≤ 128 →
    0 ≤ digestSum i0 msg j ∧ digestSum i0 msg j ≤ 31 := by
  intro msg
  induction msg with
  | nil => intro i0 j _ _; rw [digestSum_nil]; decide
  | cons ch rest ih =>
    intro i0 j hch hlen
    rw [List.length_cons] at hlen
    obtain ⟨n, rfl⟩ := Int.eq_ofNat_of_zero_le (hch ch (List.mem_cons_self _ _))
    have hb := hashTerm_cast_bounds n i0
    rw [digestSum_cons]
    by_cases hj : hashIndex i0 = j
    · have hj' : i0 = j.1 := (hashIndex_eq_iff i0 j (by omega)).1 hj
      rw [if_pos hj, digestSum_outside rest (i0 + 1) j (by omega) (Or.inl (by omega))]
      omega
    · rw [if_neg hj]
      have := ih (i0 + 1) j (fun c hc => hch c (List.mem_cons_of_mem _ hc)) (by omega)
      omega

theorem digestSum_first_coord (msg : List Int) (hlen : msg.length ≤ 128) :
    digestSum 0 msg 0 = 0 := by
  cases msg with
  | nil => exact digestSum_nil 0 0
  | cons ch rest =>
    rw [List.length_cons] at hlen
    rw [digestSum_cons, digestSum_outside rest (0 + 1) 0 (by omega) (Or.inl (by decide))]
    simp

/-- On a message of at most 128 `char`s with values in `0 .. 255` the digest is defined,
every coordinate lies in `[1, 32]`, coordinate `0` is `1`, and every coordinate from the
length of the message on is `1`. -/
theorem ComputeSimpleHash_short (msg : List Int)
    (hch : ∀ ch ∈ msg, 0 ≤ ch ∧ ch ≤ 255) (hlen : msg.length ≤ 128) :
    ∃ h, ComputeSimpleHash msg = some h ∧ (∀ j, 1 ≤ h j ∧ h j ≤ 32) ∧ h 0 = 1 ∧
      ∀ j : Fin 128, msg.length ≤ j.1 → h j = 1 := by
  obtain ⟨h, hh, hform⟩ := ComputeSimpleHash_eq_digestSpec msg hch (by omega)
  refine ⟨h, hh, fun j => ?_, ?_, fun j hj => ?_⟩
  · have := digestSum_short msg 0 j (fun c hc => (hch c hc).1) (by omega)
    rw [hform j]
    unfold digestSpec
    omega
  · rw [hform 0]
    unfold digestSpec
    rw [digestSum_first_coord msg hlen]
    rfl
  · rw [hform j]
    unfold digestSpec
    rw [digestSum_outside msg 0 j (by omega) (Or.inr (by omega))]
    rfl

/-- C19, evaluated where it fails: the message `"é"` in UTF-8 (two `char`s, of values `-61`
and `-87`) has a digest whose coordinate `1` is `-86`, below `1` and outside `[1, 32]`;
the message `"a\xFE"` has `-1` there. -/
theorem digest_below_one :
    accentMessage.length ≤ 128 ∧
    (ComputeSimpleHash accentMessage).map (fun h => h 1) = some (-86) ∧
    (ComputeSimpleHash [97, -2]).map (fun h => h 1) = some (-1) ∧
    ¬ ((1 : Int) ≤ -86) := by
  decide

/-! ## Signing -/

/-- The coordinates of an honest signature, as the program computes them. -/
theorem Sign_of_hash {message : List Int} {h : vector_t}
    (hh : ComputeSimpleHash message = some h) (sk : RWEPrivateKey) (mt : mt19937)
    (hm : 1 < sk.module_) :
    ∃ y1 y2 w c z1 z2 : vector_t, Sign message sk mt = some (c, z1, z2) ∧
      (∀ i : Fin 128, y1 i =
        mt ⟨-(Int.tdiv sk.module_ 2) + 1, Int.tdiv sk.module_ 2⟩ (0 + i)) ∧
      (∀ i : Fin 128, y2 i =
        mt ⟨-(Int.tdiv sk.module_ 2) + 1, Int.tdiv sk.module_ 2⟩ (128 + i)) ∧
      (∀ i, w i = modCoord (wrap (wrap (sk.AVector_ i * y1 i) + y2 i)) sk.module_) ∧
      (∀ i, c i = modCoord (wrap (w i + h i)) sk.module_) ∧
      (∀ i, z1 i = modCoord (wrap (wrap (sk.SVector_ i * c i) + y1 i)) sk.module_) ∧
      (∀ i, z2 i = modCoord (wrap (wrap (sk.EVector_ i * c i) + y2 i)) sk.module_) := by
  refine ⟨_, _, _, _, _, _, ?_, fun _ => rfl, fun _ => rfl, fun _ => rfl, fun _ => rfl,
    fun _ => rfl, fun _ => rfl⟩
  unfold Sign
  rw [hh]
  have h1 : (⟨-(Int.tdiv sk.module_ 2) + 1, Int.tdiv sk.module_ 2⟩ :
      uniform_int_distribution).a
      ≤ (⟨-(Int.tdiv sk.module_ 2) + 1, Int.tdiv sk.module_ 2⟩ : uniform_int_distribution).b :=
    (tdiv_two_bounds hm).1
  simp only [Option.some_bind, generate_eq_some h1,
    operator_mod_eq_some _ (show (0 : Int) < sk.module_ by omega)]
  rfl

theorem Sign_of_hash_none {message : List Int} (hh : ComputeSimpleHash message = none)
    (sk : RWEPrivateKey) (mt : mt19937) : Sign message sk mt = none := by
  unfold Sign
  rw [hh]
  rfl

/-- With a modulus `m <= 1` the range `[-(m/2)+1, m/2]` of the signing draws is empty and
`Sign` does not return. -/
theorem Sign_eq_none (message : List Int) (sk : RWEPrivateKey) (mt : mt19937)
    (hm : sk.module_ ≤ 1) : Sign message sk mt = none := by
  unfold Sign
  have h1 : ¬ (⟨-(Int.tdiv sk.module_ 2) + 1, Int.tdiv sk.module_ 2⟩ :
      uniform_int_distribution).a
      ≤ (⟨-(Int.tdiv sk.module_ 2) + 1, Int.tdiv sk.module_ 2⟩ : uniform_int_distribution).b :=
    tdiv_two_empty hm
  cases ComputeSimpleHash message with
  | none => rfl
  | some h => simp only [Option.some_bind, generate_eq_none h1, Option.none_bind]

set_option maxRecDepth 100000 in
/-- C2, evaluated where it fails. First, the engine that draws `s = 1`, `e = 0`, `a = 1` stays
within the ranges of `GenerateKeyPair(929)` and of `Sign`; for the key pair it yields and the
message `"\xFF"` (one `char` of value `-1`) `Sign` faults in the digest, which divides by
`string[0] % 32 + 1 = 0`, so no signature is produced and nothing verifies. Second, without
any fault: with modulus `2`, the in-range key draws `s = e = 0`, `a = 2`, the in-range signing
draws `y1 = y2 = 1` and the message `"aa\xFE"`, whose digest is `-3` at coordinate `2`, the
signature has `z1 = z2 =` all ones and `Verify` returns false. -/
theorem Sign_not_verified :
    (InRange (sourceOf onesDraws) ∧
      ∃ pk sk, GenerateKeyPair 929 (sourceOf onesDraws) = some (pk, sk) ∧
        Sign ffMessage sk (sourceOf onesDraws) = none ∧
        (Sign ffMessage sk (sourceOf onesDraws)).bind (Verify ffMessage pk) = none) ∧
    (InRange (sourceOf evenDraws) ∧ InRange (sourceOf unitDraws) ∧
      (ComputeSimpleHash feMessage).map (fun h => h 2) = some (-3) ∧
      (GenerateKeyPair 2 (sourceOf evenDraws)).bind (fun k =>
        (Sign feMessage k.2 (sourceOf unitDraws)).bind (fun sig =>
          (Verify feMessage k.1 sig).map (fun b => (b, allZero sig.2.1, allZero sig.2.2))))
        = some (false, false, false)) := by
  refine ⟨⟨InRange_sourceOf onesDraws, _, _, GenerateKeyPair_eq_some 929 (by decide) _, ?_, ?_⟩,
    InRange_sourceOf evenDraws, InRange_sourceOf unitDraws, by decide, by decide⟩
  · exact Sign_of_hash_none ComputeSimpleHash_ffMessage _ _
  · rw [Sign_of_hash_none ComputeSimpleHash_ffMessage]
    rfl

set_option maxRecDepth 100000 in
/-- C18, evaluated where it fails: with modulus `2`, the private key `s = e = 0`, `a = 2`,
the in-range signing draws `y1 = y2 = 1` and the message `"aa\xFE"` (digest `-3` at
coordinate `2`), `Sign` returns a challenge with `c[2] = 2`, the modulus itself, which is
not in `[0, 2)`. -/
theorem Sign_challenge_not_reduced :
    0 < evenPrivateKey.module_ ∧ InRange (sourceOf unitDraws) ∧
    (Sign feMessage evenPrivateKey (sourceOf unitDraws)).map (fun sig => sig.1 2) = some 2 ∧
    ¬ ((2 : Int) < evenPrivateKey.module_) :=
  ⟨by decide, InRange_sourceOf unitDraws, by decide, by decide⟩

/-! ## The forger -/

theorem FakeSign_of_hash {string : List Int} {h : vector_t}
    (hh : ComputeSimpleHash string = some h) (pk : RWEPublicKey) (hm : 0 < pk.module_) :
    FakeSign string pk = some (constVector 1, constVector 1,
      fun i => modCoord (wrap (wrap (wrap (wrap (1 * pk.ASEVector_ i) + 1) - h i)
        - wrap (pk.AVector_ i * 1))) pk.module_) := by
  unfold FakeSign
  rw [hh]
  simp only [Option.some_bind, operator_mod_eq_some _ hm, Option.map_some']
  rfl

theorem FakeSign_of_hash_none {string : List Int} (hh : ComputeSimpleHash string = none)
    (pk : RWEPublicKey) : FakeSign string pk = none := by
  unfold FakeSign
  rw [hh]
  rfl

set_option maxRecDepth 100000 in
/-- C1, where it fails. The engine that draws `s = 1`, `e = 0`, `a = 1` stays within
the ranges of `GenerateKeyPair(929)`; for the public key it yields (`ase = a = 1`) and the
message `"a"` (digest all ones) the forger's `z2 = mod(ase + 1 - h - a, m)` is the all-zero
vector, so `Verify` rejects the forged signature. And with the modulus `2147483647`,
`ase = a = 1` and the message `"hello"` the forger's `z2` is `2147483642` at coordinate `1`,
not all-zero, yet `Verify` rejects the signature, because `2147483642 + 6` overflows `int`. -/
theorem FakeSign_rejected :
    InRange (sourceOf onesDraws) ∧
    (GenerateKeyPair 929 (sourceOf onesDraws)).bind
      (fun k => (FakeSign (ofString "a") k.1).bind (Verify (ofString "a") k.1)) = some false ∧
    (FakeSign (ofString "a") onesKey).bind (Verify (ofString "a") onesKey) = some false ∧
    (FakeSign (ofString "hello") maxKey).bind (fun sig =>
      (Verify (ofString "hello") maxKey sig).map (fun b => (b, sig.2.2 1)))
      = some (false, 2147483642) :=
  ⟨InRange_sourceOf onesDraws, by decide, by decide, by decide⟩

/-! ## The verification equation over the integers -/

/-- The residue of the vector `Verify` reduces, over the integers, at one coordinate: with `ase`, `w`, `c`, `z1`,
`z2` as computed by key generation and signing for the digest `h`, the value
`mod(a*z1 + z2 - ase*c + h', m)` is congruent to `c + (h' - h)` modulo `m`. -/
theorem verify_residue (m a s e y1 y2 h h' ase w c z1 z2 : Int)
    (hase : ase = specMod (a * s + e) m) (hw : w = specMod (a * y1 + y2) m)
    (hc : c = specMod (w + h) m) (hz1 : z1 = specMod (s * c + y1) m)
    (hz2 : z2 = specMod (e * c + y2) m) :
    specMod (a * z1 + z2 - ase * c + h') m ≡ c + (h' - h) [ZMOD m] := by
  have e1 : z1 ≡ s * c + y1 [ZMOD m] := hz1 ▸ specMod_modEq _ _
  have e2 : z2 ≡ e * c + y2 [ZMOD m] := hz2 ▸ specMod_modEq _ _
  have e3 : ase ≡ a * s + e [ZMOD m] := hase ▸ specMod_modEq _ _
  have e4 : w ≡ a * y1 + y2 [ZMOD m] := hw ▸ specMod_modEq _ _
  have e5 : c ≡ w + h [ZMOD m] := hc ▸ specMod_modEq _ _
  have e6 : c ≡ a * y1 + y2 + h [ZMOD m] := e5.trans (e4.add_right h)
  calc specMod (a * z1 + z2 - ase * c + h') m
      ≡ a * z1 + z2 - ase * c + h' [ZMOD m] := specMod_modEq _ _
    _ ≡ a * (s * c + y1) + (e * c + y2) - (a * s + e) * c + h' [ZMOD m] :=
        (((e1.mul_left a).add e2).sub (e3.mul_right c)).add_right h'
    _ = (a * y1 + y2 + h) + (h' - h) := by ring
    _ ≡ c + (h' - h) [ZMOD m] := e6.symm.add_right _

/-- One coordinate of the verification of an honest signature, over the integers: when `a` and the digest
coordinate `h` are non-negative, `mod(a*z1 + z2 - ase*c + h, m)` is `c`. -/
theorem verify_accepts_coord (m a s e y1 y2 h ase w c z1 z2 : Int) (hm : 0 < m)
    (ha : 0 ≤ a) (hh : 0 ≤ h)
    (hase : ase = specMod (a * s + e) m) (hw : w = specMod (a * y1 + y2) m)
    (hc : c = specMod (w + h) m) (hz1 : z1 = specMod (s * c + y1) m)
    (hz2 : z2 = specMod (e * c + y2) m) :
    specMod (a * z1 + z2 - ase * c + h) m = c := by
  have hr := verify_residue m a s e y1 y2 h h ase w c z1 z2 hase hw hc hz1 hz2
  have hw0 : 0 ≤ w := hw ▸ specMod_nonneg _ hm
  have hz10 : 0 ≤ z1 := hz1 ▸ specMod_nonneg _ hm
  have hz20 : 0 ≤ z2 := hz2 ▸ specMod_nonneg _ hm
  have hc0 : 0 ≤ c := hc ▸ specMod_nonneg _ hm
  have hcm : c < m := hc ▸ specMod_lt_of_nonneg (by omega) hm
  have hr0 := specMod_nonneg (a * z1 + z2 - ase * c + h) hm
  have hrm := specMod_le (a * z1 + z2 - ase * c + h) hm
  have hmod : specMod (a * z1 + z2 - ase * c + h) m % m = c := by
    have : specMod (a * z1 + z2 - ase * c + h) m % m = (c + (h - h)) % m := hr
    rw [this, sub_self, add_zero, Int.emod_eq_of_lt hc0 hcm]
  rcases le_or_lt 0 (a * z1 + z2 - ase * c + h) with hx | hx
  · have := specMod_lt_of_nonneg hx hm
    rw [Int.emod_eq_of_lt hr0 this] at hmod
    exact hmod
  · rcases eq_or_lt_of_le hrm with heq | hlt
    · -- the reduced value is `m`, so `c = 0`, which makes the argument non-negative
      rw [heq, Int.emod_self] at hmod
      have hc' : c = 0 := hmod.symm
      rw [hc'] at hx
      have : 0 ≤ a * z1 := mul_nonneg ha hz10
      linarith
    · rw [Int.emod_eq_of_lt hr0 hlt] at hmod
      exact hmod

/-- One coordinate of the verification of a forged signature, over the integers: with `c = z1 = 1` and
`z2 = mod(c*ase + c - h - a*z1, m)`, the value `mod(a*z1 + z2 - ase*c + h, m)` is `1`
for every modulus `m > 1`. -/
theorem forge_coord (m a ase h : Int) (hm : 1 < m) :
    specMod (a * 1 + specMod (1 * ase + 1 - h - a * 1) m - ase * 1 + h) m = 1 := by
  have hm0 : 0 < m := by omega
  have e1 : specMod (1 * ase + 1 - h - a * 1) m ≡ 1 * ase + 1 - h - a * 1 [ZMOD m] :=
    specMod_modEq _ _
  have e2 : specMod (a * 1 + specMod (1 * ase + 1 - h - a * 1) m - ase * 1 + h) m
      ≡ 1 [ZMOD m] :=
    calc specMod (a * 1 + specMod (1 * ase + 1 - h - a * 1) m - ase * 1 + h) m
        ≡ a * 1 + specMod (1 * ase + 1 - h - a * 1) m - ase * 1 + h [ZMOD m] :=
          specMod_modEq _ _
      _ ≡ a * 1 + (1 * ase + 1 - h - a * 1) - ase * 1 + h [ZMOD m] :=
          (((Int.ModEq.refl (a * 1)).add e1).sub_right _).add_right _
      _ = 1 := by ring
  have h0 := specMod_nonneg (a * 1 + specMod (1 * ase + 1 - h - a * 1) m - ase * 1 + h) hm0
  have h1 := specMod_le (a * 1 + specMod (1 * ase + 1 - h - a * 1) m - ase * 1 + h) hm0
  have e3 : specMod (a * 1 + specMod (1 * ase + 1 - h - a * 1) m - ase * 1 + h) m % m = 1 := by
    have : specMod (a * 1 + specMod (1 * ase + 1 - h - a * 1) m - ase * 1 + h) m % m
        = 1 % m := e2
    rw [this, Int.emod_eq_of_lt (by decide) hm]
  rcases eq_or_lt_of_le h1 with heq | hlt
  · rw [heq, Int.emod_self] at e3
    exact absurd e3 (by decide)
  · rw [Int.emod_eq_of_lt h0 hlt] at e3
    exact e3

/-- Over the integers, the forger's `z2` vanishes at a coordinate exactly when `ase + 1 - h - a` is a
non-negative multiple of the modulus there. -/
theorem forge_z2_eq_zero_iff (m a ase h : Int) (hm : 0 < m) :
    specMod (1 * ase + 1 - h - a * 1) m = 0 ↔
      (0 ≤ ase + 1 - h - a ∧ m ∣ ase + 1 - h - a) := by
  have e : 1 * ase + 1 - h - a * 1 = ase + 1 - h - a := by ring
  rw [e]
  constructor
  · intro hz
    rcases le_or_lt 0 (ase + 1 - h - a) with hx | hx
    · rw [specMod_of_nonneg hx] at hz
      exact ⟨hx, Int.dvd_of_emod_eq_zero hz⟩
    · have := specMod_pos_of_neg hx hm
      omega
  · rintro ⟨hx, hd⟩
    rw [specMod_of_nonneg hx]
    exact Int.emod_eq_zero_of_dvd hd

/-! ## The forged signature within `int` range -/

theorem wrap_eq_zero_iff {x : Int} (h1 : -2 ^ 32 < x) (h2 : x < 2 ^ 32) :
    wrap x = 0 ↔ x = 0 := by
  unfold wrap
  omega

/-- The forger's `z2` when nothing overflows: for `|ase|, |a|, |h| <= 2^28` and
`0 < m <= 2^28` it is the exact reduction of `ase + 1 - h - a`. -/
theorem forge_z2_exact {m a ase h : Int} (hm : 0 < m) (hm2 : m ≤ 2 ^ 28)
    (ha : -2 ^ 28 ≤ a ∧ a ≤ 2 ^ 28) (hase : -2 ^ 28 ≤ ase ∧ ase ≤ 2 ^ 28)
    (hh : -2 ^ 28 ≤ h ∧ h ≤ 2 ^ 28) :
    modCoord (wrap (wrap (wrap (wrap (1 * ase) + 1) - h) - wrap (a * 1))) m
      = specMod (1 * ase + 1 - h - a * 1) m := by
  rw [one_mul, mul_one, wrap_eq_self (x := ase) (by omega) (by omega),
    wrap_eq_self (x := a) (by omega) (by omega),
    wrap_eq_self (x := ase + 1) (by omega) (by omega),
    wrap_eq_self (x := ase + 1 - h) (by omega) (by omega),
    wrap_eq_self (x := ase + 1 - h - a) (by omega) (by omega)]
  exact modCoord_eq_specMod (by omega) (by omega) hm (by omega)

/-- The value `Verify` reduces for a forged signature when nothing overflows. -/
theorem forge_verify_exact {m a ase h z2 : Int} (hm : 0 < m) (hm2 : m ≤ 2 ^ 28)
    (ha : -2 ^ 28 ≤ a ∧ a ≤ 2 ^ 28) (hase : -2 ^ 28 ≤ ase ∧ ase ≤ 2 ^ 28)
    (hh : -2 ^ 28 ≤ h ∧ h ≤ 2 ^ 28) (hz : 0 ≤ z2 ∧ z2 ≤ m) :
    modCoord (wrap (wrap (wrap (wrap (a * 1) + z2) - wrap (ase * 1)) + h)) m
      = specMod (a * 1 + z2 - ase * 1 + h) m := by
  rw [mul_one, mul_one, wrap_eq_self (x := a) (by omega) (by omega),
    wrap_eq_self (x := ase) (by omega) (by omega),
    wrap_eq_self (x := a + z2) (by omega) (by omega),
    wrap_eq_self (x := a + z2 - ase) (by omega) (by omega),
    wrap_eq_self (x := a + z2 - ase + h) (by omega) (by omega)]
  exact modCoord_eq_specMod (by omega) (by omega) hm (by omega)

/-- The forged signature and the vector `Verify` reduces, for a modulus `1 < m <= 2^28` and
coordinates of `ase`, `a` and the digest `h` of absolute value at most `2^28`: `z2` is the
exact reduction of `ase + 1 - h - a`, and the reduced vector is all ones. -/
theorem forge_within_range {message : List Int} {h : vector_t}
    (hh : ComputeSimpleHash message = some h) (pk : RWEPublicKey)
    (hm : 1 < pk.module_) (hm2 : pk.module_ ≤ 2 ^ 28)
    (hase : Bounded (2 ^ 28) pk.ASEVector_) (ha : Bounded (2 ^ 28) pk.AVector_)
    (hH : Bounded (2 ^ 28) h) :
    ∃ z2 : vector_t, FakeSign message pk = some (constVector 1, constVector 1, z2) ∧
      (∀ i, z2 i = specMod (1 * pk.ASEVector_ i + 1 - h i - pk.AVector_ i * 1) pk.module_) ∧
      operator_mod (operator_sub (operator_sub (operator_add
        (operator_mul (constVector 1) pk.ASEVector_) (constVector 1)) h)
        (operator_mul pk.AVector_ (constVector 1))) pk.module_ = some z2 ∧
      ∃ r : vector_t, operator_mod (operator_add (operator_sub (operator_add
          (operator_mul pk.AVector_ (constVector 1)) z2)
          (operator_mul pk.ASEVector_ (constVector 1))) h) pk.module_ = some r ∧
        (∀ i, r i = 1) ∧ ∀ i, operator_sub r (constVector 1) i = 0 := by
  have hm0 : 0 < pk.module_ := by omega
  have hz : ∀ i, modCoord (wrap (wrap (wrap (wrap (1 * pk.ASEVector_ i) + 1) - h i)
      - wrap (pk.AVector_ i * 1))) pk.module_
      = specMod (1 * pk.ASEVector_ i + 1 - h i - pk.AVector_ i * 1) pk.module_ :=
    fun i => forge_z2_exact hm0 hm2 (ha i) (hase i) (hH i)
  have hr : ∀ i, modCoord (wrap (wrap (wrap (wrap (pk.AVector_ i * 1)
      + modCoord (wrap (wrap (wrap (wrap (1 * pk.ASEVector_ i) + 1) - h i)
        - wrap (pk.AVector_ i * 1))) pk.module_) - wrap (pk.ASEVector_ i * 1)) + h i))
      pk.module_ = 1 := by
    intro i
    rw [forge_verify_exact hm0 hm2 (ha i) (hase i) (hH i)
      (by rw [hz i]; exact ⟨specMod_nonneg _ hm0, specMod_le _ hm0⟩), hz i]
    exact forge_coord pk.module_ (pk.AVector_ i) (pk.ASEVector_ i) (h i) hm
  refine ⟨_, FakeSign_of_hash hh pk hm0, hz, ?_, _, operator_mod_eq_some _ hm0, hr, ?_⟩
  · rw [operator_mod_eq_some _ hm0]
    rfl
  · intro i
    show wrap (modCoord (wrap (wrap (wrap (wrap (pk.AVector_ i * 1)
      + modCoord (wrap (wrap (wrap (wrap (1 * pk.ASEVector_ i) + 1) - h i)
        - wrap (pk.AVector_ i * 1))) pk.module_) - wrap (pk.ASEVector_ i * 1)) + h i))
      pk.module_ - 1) = 0
    rw [hr i]
    decide

/-- A message of at most 128 `char`s with values in `0 .. 255` has a digest with
coordinates in `[1, 32]`, in particular of absolute value at most `B` for every `B >= 32`. -/
theorem digest_bounded_of_short (msg : List Int)
    (hch : ∀ ch ∈ msg, 0 ≤ ch ∧ ch ≤ 255) (hlen : msg.length ≤ 128) (B : Int) (hB : 32 ≤ B) :
    ∃ h, ComputeSimpleHash msg = some h ∧ Bounded B h ∧ ∀ i, 1 ≤ h i := by
  obtain ⟨h, hh, hb, -, -⟩ := ComputeSimpleHash_short msg hch hlen
  refine ⟨h, hh, fun i => ?_, fun i => (hb i).1⟩
  have := hb i
  constructor <;> omega

theorem Bounded_constVector {B x : Int} (h1 : -B ≤ x) (h2 : x ≤ B) :
    Bounded B (constVector x) :=
  fun _ => ⟨h1, h2⟩

/-- C1, amended: for every modulus `1 < m <= 2^28`, every message whose digest is defined with
coordinates of absolute value at most `2^28`, and every public key with modulus `m` whose
aseVector and aVector have coordinates of absolute value at most `2^28`, `FakeSign` returns a
signature `(c, z1, z2)`, and `Verify` returns true on it unless `z2` is the all-zero
vector. -/
theorem FakeSign_verifies_unless_zero (m : Int) (hm : 1 < m) (hm2 : m ≤ 2 ^ 28)
    (message : List Int) (h : vector_t) (hh : ComputeSimpleHash message = some h)
    (hH : Bounded (2 ^ 28) h) (pk : RWEPublicKey) (hpk : pk.module_ = m)
    (hase : Bounded (2 ^ 28) pk.ASEVector_) (ha : Bounded (2 ^ 28) pk.AVector_) :
    ∃ c z1 z2, FakeSign message pk = some (c, z1, z2) ∧
      ((¬ ∀ i, z2 i = 0) → Verify message pk (c, z1, z2) = some true) := by
  subst hpk
  obtain ⟨z2, hs, -, -, r, hr, -, hzero⟩ := forge_within_range hh pk hm hm2 hase ha hH
  refine ⟨_, _, z2, hs, fun hz => ?_⟩
  rw [Verify_of_hash hh, hr]
  have h1 : allZero (constVector 1) = false := by decide
  have h2 : allZero z2 = false := by
    rw [← Bool.not_eq_true, allZero_eq_true_iff]
    exact hz
  rw [h1, h2]
  simp only [Bool.false_eq_true, if_false, Option.map_some', Option.some.injEq,
    decide_eq_true_eq]
  exact hzero

/-- C1, amended, at modulus `929`, the message `"hello"` and the public key with
`ase = a = 1`: the forged signature is accepted. -/
theorem FakeSign_verifies_unless_zero_witness :
    (1 : Int) < 929 ∧ (929 : Int) ≤ 2 ^ 28 ∧
    Bounded (2 ^ 28) onesKey.ASEVector_ ∧ Bounded (2 ^ 28) onesKey.AVector_ ∧
    (FakeSign (ofString "hello") onesKey).bind (Verify (ofString "hello") onesKey)
      = some true := by
  have hb1 : Bounded (2 ^ 28) onesKey.ASEVector_ :=
    Bounded_constVector (by decide) (by decide)
  have hb2 : Bounded (2 ^ 28) onesKey.AVector_ :=
    Bounded_constVector (by decide) (by decide)
  refine ⟨by decide, by decide, hb1, hb2, ?_⟩
  obtain ⟨h, hh, hH, -⟩ := digest_bounded_of_short (ofString "hello") (by decide) (by decide)
    (2 ^ 28) (by decide)
  obtain ⟨c, z1, z2, hs, hv⟩ := FakeSign_verifies_unless_zero 929 (by decide) (by decide)
    (ofString "hello") h hh hH onesKey rfl hb1 hb2
  rw [hs, Option.some_bind]
  apply hv
  intro hz
  have e1 : (FakeSign (ofString "hello") onesKey).map (fun s => s.2.2 1) = some 924 := by
    decide
  rw [hs] at e1
  simp only [Option.map_some', Option.some.injEq] at e1
  rw [hz 1] at e1
  exact absurd e1 (by decide)

set_option maxRecDepth 100000 in
/-- C14, where it fails: with the modulus `2147483647 > 1`, `ase = a = 1` and the message
`"hello"` (digest `6` at coordinate `1`) the forger returns `z2[1] = 2147483642`; in `Verify`
the sum `a*z1 + z2 - ase*c + h = 2147483642 + 6` overflows `int`, and the vector
`mod(a*z1 + z2 - ase*c + h, m) - c` is `2147483647` at coordinate `1`, not `0`. -/
theorem forgery_equation_overflow :
    (1 : Int) < maxKey.module_ ∧
    (FakeSign (ofString "hello") maxKey).bind (fun sig =>
      (ComputeSimpleHash (ofString "hello")).bind (fun h =>
        (operator_mod (operator_add (operator_sub (operator_add
          (operator_mul maxKey.AVector_ sig.2.1) sig.2.2)
          (operator_mul maxKey.ASEVector_ sig.1)) h) maxKey.module_).map
          (fun r => (h 1, sig.2.2 1, operator_sub r sig.1 1))))
      = some (6, 2147483642, 2147483647) := by
  decide

/-- C14, amended: for every modulus `1 < m <= 2^28`, every message whose digest `h` has
coordinates of absolute value at most `2^28` and every public key with modulus `m` whose
aseVector and aVector have coordinates of absolute value at most `2^28`, `FakeSign` returns
`(c, z1, z2)` with `c = z1 =` all ones and `z2 = mod(c*ase + c - h - a*z1, m)`, and the vector
`mod(a*z1 + z2 - ase*c + h, m) - c` that `Verify` computes is `0` at every coordinate. -/
theorem forgery_equation (m : Int) (hm : 1 < m) (hm2 : m ≤ 2 ^ 28) (message : List Int)
    (h : vector_t) (hh : ComputeSimpleHash message = some h) (hH : Bounded (2 ^ 28) h)
    (pk : RWEPublicKey) (hpk : pk.module_ = m)
    (hase : Bounded (2 ^ 28) pk.ASEVector_) (ha : Bounded (2 ^ 28) pk.AVector_) :
    ∃ c z1 z2, FakeSign message pk = some (c, z1, z2) ∧
      (∀ i, c i = 1) ∧ (∀ i, z1 i = 1) ∧
      operator_mod (operator_sub (operator_sub (operator_add (operator_mul c pk.ASEVector_) c)
        h) (operator_mul pk.AVector_ z1)) m = some z2 ∧
      (∀ i, z2 i = specMod (pk.ASEVector_ i + 1 - h i - pk.AVector_ i) m) ∧
      ∃ r, operator_mod (operator_add (operator_sub (operator_add
          (operator_mul pk.AVector_ z1) z2) (operator_mul pk.ASEVector_ c)) h) m = some r ∧
        ∀ i, operator_sub r c i = 0 := by
  subst hpk
  obtain ⟨z2, hs, hz, hz2, r, hr, -, hzero⟩ := forge_within_range hh pk hm hm2 hase ha hH
  refine ⟨_, _, z2, hs, fun _ => rfl, fun _ => rfl, hz2, fun i => ?_, r, hr, hzero⟩
  rw [hz i, one_mul, mul_one]

/-- C14, amended, at modulus `929`, the empty message (digest all ones) and the public key
with `ase = a = 1`. -/
theorem forgery_equation_witness :
    (1 : Int) < 929 ∧ (929 : Int) ≤ 2 ^ 28 ∧ ComputeSimpleHash [] = some (constVector 1) ∧
    Bounded (2 ^ 28) (constVector 1) ∧
    ∃ c z1 z2, FakeSign [] onesKey = some (c, z1, z2) ∧
      (∀ i, c i = 1) ∧ (∀ i, z1 i = 1) ∧
      operator_mod (operator_sub (operator_sub (operator_add
        (operator_mul c onesKey.ASEVector_) c) (constVector 1))
        (operator_mul onesKey.AVector_ z1)) 929 = some z2 ∧
      (∀ i, z2 i = specMod (onesKey.ASEVector_ i + 1 - constVector 1 i - onesKey.AVector_ i)
        929) ∧
      ∃ r, operator_mod (operator_add (operator_sub (operator_add
          (operator_mul onesKey.AVector_ z1) z2) (operator_mul onesKey.ASEVector_ c))
          (constVector 1)) 929 = some r ∧
        ∀ i, operator_sub r c i = 0 :=
  ⟨by decide, by decide, rfl, Bounded_constVector (by decide) (by decide),
    forgery_equation 929 (by decide) (by decide) [] (constVector 1) rfl
      (Bounded_constVector (by decide) (by decide)) onesKey rfl
      (Bounded_constVector (by decide) (by decide))
      (Bounded_constVector (by decide) (by decide))⟩

set_option maxRecDepth 100000 in
/-- C15, where it fails: with the modulus `2147483647 > 1`, `ase = a = 1` and the message
`"hello"`, `ase[1] + 1 - h[1] - a[1] = -5` is not a non-negative multiple of the modulus and
the forger's `z2` is not the all-zero vector, yet `Verify` returns false on the forged
signature, because `a*z1 + z2 - ase*c + h` overflows `int` at coordinate `1`. -/
theorem forgery_rejected_overflow :
    (1 : Int) < maxKey.module_ ∧
    (ComputeSimpleHash (ofString "hello")).map
      (fun h => maxKey.ASEVector_ 1 + 1 - h 1 - maxKey.AVector_ 1) = some (-5) ∧
    (FakeSign (ofString "hello") maxKey).bind (fun sig =>
      (Verify (ofString "hello") maxKey sig).map (fun b => (b, allZero sig.2.2)))
      = some (false, false) := by
  decide

/-- C15, amended: for every modulus `1 < m <= 2^28`, every message whose digest, where it is
defined, has coordinates of absolute value at most `2^28`, and every public key with modulus
`m` whose aseVector and aVector have coordinates of absolute value at most `2^28`,
`Verify(message, pk, FakeSign(message, pk))` is true if and only if `FakeSign` returns a
signature whose `z2` is not the all-zero vector, that is, if and only if the message has a
digest `h` and at some coordinate `ase[i] + 1 - h[i] - a[i]` is not a non-negative multiple
of `m`. -/
theorem forgery_accepted_iff (m : Int) (hm : 1 < m) (hm2 : m ≤ 2 ^ 28) (message : List Int)
    (pk : RWEPublicKey) (hpk : pk.module_ = m)
    (hase : Bounded (2 ^ 28) pk.ASEVector_) (ha : Bounded (2 ^ 28) pk.AVector_)
    (hH : ∀ h, ComputeSimpleHash message = some h → Bounded (2 ^ 28) h) :
    ((FakeSign message pk).bind (Verify message pk) = some true ↔
      ∃ c z1 z2, FakeSign message pk = some (c, z1, z2) ∧ ¬ ∀ i, z2 i = 0) ∧
    ((FakeSign message pk).bind (Verify message pk) = some true ↔
      ∃ h, ComputeSimpleHash message = some h ∧
        ∃ i, ¬ (0 ≤ pk.ASEVector_ i + 1 - h i - pk.AVector_ i ∧
          m ∣ pk.ASEVector_ i + 1 - h i - pk.AVector_ i)) := by
  subst hpk
  have hmpos : 0 < pk.module_ := by omega
  cases hh : ComputeSimpleHash message with
  | none =>
    rw [FakeSign_of_hash_none hh]
    refine ⟨⟨fun h => absurd h (by simp), ?_⟩, ⟨fun h => absurd h (by simp), ?_⟩⟩
    · rintro ⟨c, z1, z2, hs, -⟩
      exact absurd hs (by simp)
    · rintro ⟨h, hh', -⟩
      exact absurd hh' (by simp)
  | some h =>
    obtain ⟨z2, hs, hz, -, r, hr, -, hzero⟩ :=
      forge_within_range hh pk hm hm2 hase ha (hH h hh)
    -- the verdict on the forged signature is the negation of "z2 is all-zero"
    have key : (FakeSign message pk).bind (Verify message pk) = some true ↔
        ¬ ∀ i, z2 i = 0 := by
      rw [hs, Option.some_bind, Verify_of_hash hh, hr]
      have h1 : allZero (constVector 1) = false := by decide
      rw [h1]
      by_cases hzz : ∀ i, z2 i = 0
      · rw [(allZero_eq_true_iff z2).2 hzz, if_neg (by simp), if_pos rfl]
        exact ⟨fun hv => absurd hv (by simp), fun hv => absurd hzz hv⟩
      · have h2 : allZero z2 = false := by
          rw [← Bool.not_eq_true, allZero_eq_true_iff]
          exact hzz
        rw [h2]
        simp only [Bool.false_eq_true, if_false, Option.map_some', Option.some.injEq,
          decide_eq_true_eq]
        exact ⟨fun _ => hzz, fun _ => hzero⟩
    constructor
    · rw [key]
      constructor
      · intro hzz
        exact ⟨_, _, z2, hs, hzz⟩
      · rintro ⟨c, z1, z2', hs', hzz⟩
        rw [hs] at hs'
        have := congrArg (fun s => s.2.2) (Option.some.inj hs')
        simp only at this
        rw [← this] at hzz
        exact hzz
    · rw [key]
      constructor
      · intro hzz
        refine ⟨h, rfl, ?_⟩
        by_contra hall
        apply hzz
        intro i
        rw [hz i, forge_z2_eq_zero_iff _ _ _ _ hmpos]
        by_contra hi
        exact hall ⟨i, hi⟩
      · rintro ⟨h', hh', i, hi⟩
        cases hh'
        intro hzz
        have := hzz i
        rw [hz i] at this
        exact hi ((forge_z2_eq_zero_iff _ _ _ _ hmpos).1 this)

/-- C15, amended, at modulus `929` and the public key with `ase = a = 1`: the forgery for
`"hello"` is accepted (the digest is `6` at coordinate `1`, and `1 + 1 - 6 - 1` is
negative). -/
theorem forgery_accepted_iff_witness :
    (1 : Int) < 929 ∧ (929 : Int) ≤ 2 ^ 28 ∧
    Bounded (2 ^ 28) onesKey.ASEVector_ ∧ Bounded (2 ^ 28) onesKey.AVector_ ∧
    (∀ h, ComputeSimpleHash (ofString "hello") = some h → Bounded (2 ^ 28) h) ∧
    (FakeSign (ofString "hello") onesKey).bind (Verify (ofString "hello") onesKey)
      = some true := by
  have hb1 : Bounded (2 ^ 28) onesKey.ASEVector_ :=
    Bounded_constVector (by decide) (by decide)
  have hb2 : Bounded (2 ^ 28) onesKey.AVector_ :=
    Bounded_constVector (by decide) (by decide)
  obtain ⟨h, hh, hH, -⟩ := digest_bounded_of_short (ofString "hello") (by decide) (by decide)
    (2 ^ 28) (by decide)
  have hH' : ∀ h', ComputeSimpleHash (ofString "hello") = some h' → Bounded (2 ^ 28) h' := by
    intro h' hh'
    rw [hh] at hh'
    cases hh'
    exact hH
  refine ⟨by decide, by decide, hb1, hb2, hH', ?_⟩
  have e1 : (ComputeSimpleHash (ofString "hello")).map (fun h => h 1) = some 6 := by decide
  rw [hh] at e1
  simp only [Option.map_some', Option.some.injEq] at e1
  refine (forgery_accepted_iff 929 (by decide) (by decide) (ofString "hello") onesKey rfl
    hb1 hb2 hH').2.2 ⟨h, hh, 1, ?_⟩
  rintro ⟨h0, -⟩
  rw [e1] at h0
  exact absurd h0 (by decide)

/-! ## The acceptance predicate of `Verify` -/

/-- One coordinate of the vector `Verify` reduces, when none of the `int` operations
overflows: the program's value is the exact reduction of `a*z1 + z2 - ase*c + h`. -/
theorem verify_coord_exact {a z1 z2 ase c h m : Int} (hm : 0 < m) (hm2 : m < 2 ^ 31)
    (h1 : -2 ^ 31 ≤ a * z1 ∧ a * z1 < 2 ^ 31)
    (h2 : -2 ^ 31 ≤ a * z1 + z2 ∧ a * z1 + z2 < 2 ^ 31)
    (h3 : -2 ^ 31 ≤ ase * c ∧ ase * c < 2 ^ 31)
    (h4 : -2 ^ 31 ≤ a * z1 + z2 - ase * c ∧ a * z1 + z2 - ase * c < 2 ^ 31)
    (h5 : -2 ^ 31 < a * z1 + z2 - ase * c + h ∧ a * z1 + z2 - ase * c + h < 2 ^ 31) :
    modCoord (wrap (wrap (wrap (wrap (a * z1) + z2) - wrap (ase * c)) + h)) m
      = specMod (a * z1 + z2 - ase * c + h) m := by
  rw [wrap_eq_self (x := a * z1) h1.1 h1.2, wrap_eq_self (x := ase * c) h3.1 h3.2,
    wrap_eq_self (x := a * z1 + z2) h2.1 h2.2,
    wrap_eq_self (x := a * z1 + z2 - ase * c) h4.1 h4.2,
    wrap_eq_self (x := a * z1 + z2 - ase * c + h) (by omega) h5.2]
  exact modCoord_eq_specMod h5.1 h5.2 hm hm2

/-- The last subtraction of `Verify`: for a reduced value `r` in `[0, m]` and an `int` `c`,
the `int` difference vanishes exactly when `r = c`. -/
theorem sub_eq_zero_exact {r c m : Int} (hm2 : m < 2 ^ 31) (hr : 0 ≤ r ∧ r ≤ m)
    (hc : -2 ^ 31 ≤ c ∧ c < 2 ^ 31) : wrap (r - c) = 0 ↔ r - c = 0 :=
  wrap_eq_zero_iff (by omega) (by omega)

set_option maxRecDepth 100000 in
/-- C5, where it fails: with the modulus `2147483647`, `ase = a = 1`, the empty message
(digest all ones) and the signature `c = z1 =` all ones, `z2 =` all `2147483647`, both `z1`
and `z2` are non-zero and over the integers `mod(a*z1 + z2 - ase*c + h, m) - c` is
`mod(2147483648, 2147483647) - 1 = 0` at every coordinate, yet `Verify` returns false:
`1 + 2147483647` overflows `int`. -/
theorem Verify_overflow :
    0 < maxKey.module_ ∧
    (¬ ∀ i, constVector 1 i = 0) ∧ (¬ ∀ i, constVector 2147483647 i = 0) ∧
    ComputeSimpleHash [] = some (constVector 1) ∧
    (∀ i, specMod (maxKey.AVector_ i * constVector 1 i + constVector 2147483647 i
      - maxKey.ASEVector_ i * constVector 1 i + constVector 1 i) maxKey.module_
      - constVector 1 i = 0) ∧
    Verify [] maxKey (constVector 1, constVector 1, constVector 2147483647) = some false := by
  refine ⟨by decide, fun h => absurd (h 0) (by decide), fun h => absurd (h 0) (by decide),
    rfl, fun i => ?_, by decide⟩
  show specMod (1 * 1 + 2147483647 - 1 * 1 + 1) 2147483647 - 1 = 0
  decide

/-- C5, amended: for a public key with modulus `m > 0`, `Verify` returns true if and only if
`z1` is not all-zero, `z2` is not all-zero, and the digest `h` of the message and the vector
`r = mod(a*z1 + z2 - ase*c + h, m)`, computed with the `int` operations of the program,
satisfy `r[i] - c[i] = 0` (an `int` difference) at every coordinate. When moreover
`m < 2^31`, the coordinates of `a`, `ase`, `c`, `z1`, `z2` have absolute value at most `2^14`
and those of the digest at most `2^29`, this is the equation
`mod(a*z1 + z2 - ase*c + h, m)[i] - c[i] = 0` over the integers. -/
theorem Verify_eq_true_iff (message : List Int) (pk : RWEPublicKey) (c z1 z2 : vector_t)
    (hm : 0 < pk.module_) :
    (Verify message pk (c, z1, z2) = some true ↔
      (¬ ∀ i, z1 i = 0) ∧ (¬ ∀ i, z2 i = 0) ∧
      ∃ h r, ComputeSimpleHash message = some h ∧
        operator_mod (operator_add (operator_sub (operator_add
          (operator_mul pk.AVector_ z1) z2) (operator_mul pk.ASEVector_ c)) h) pk.module_
          = some r ∧
        ∀ i : Fin 128, operator_sub r c i = 0) ∧
    (pk.module_ < 2 ^ 31 → Bounded (2 ^ 14) pk.AVector_ → Bounded (2 ^ 14) pk.ASEVector_ →
      Bounded (2 ^ 14) c → Bounded (2 ^ 14) z1 → Bounded (2 ^ 14) z2 →
      (∀ h, ComputeSimpleHash message = some h → Bounded (2 ^ 29) h) →
      (Verify message pk (c, z1, z2) = some true ↔
        (¬ ∀ i, z1 i = 0) ∧ (¬ ∀ i, z2 i = 0) ∧
        ∃ h, ComputeSimpleHash message = some h ∧
          ∀ i : Fin 128, specMod (pk.AVector_ i * z1 i + z2 i - pk.ASEVector_ i * c i + h i)
            pk.module_ - c i = 0)) := by
  have first : Verify message pk (c, z1, z2) = some true ↔
      (¬ ∀ i, z1 i = 0) ∧ (¬ ∀ i, z2 i = 0) ∧
      ∃ h r, ComputeSimpleHash message = some h ∧
        operator_mod (operator_add (operator_sub (operator_add
          (operator_mul pk.AVector_ z1) z2) (operator_mul pk.ASEVector_ c)) h) pk.module_
          = some r ∧
        ∀ i : Fin 128, operator_sub r c i = 0 := by
    cases hh : ComputeSimpleHash message with
    | none =>
      rw [Verify_of_hash_none hh]
      constructor
      · intro h; exact absurd h (by simp)
      · rintro ⟨_, _, h, r, hh', _⟩; exact absurd hh' (by simp)
    | some h =>
      rw [Verify_of_hash hh, operator_mod_eq_some _ hm]
      by_cases h1 : ∀ i, z1 i = 0
      · rw [if_pos ((allZero_eq_true_iff z1).2 h1)]
        constructor
        · intro h; exact absurd h (by simp)
        · rintro ⟨h, _⟩; exact absurd h1 h
      · rw [if_neg (fun h => h1 ((allZero_eq_true_iff z1).1 h))]
        by_cases h2 : ∀ i, z2 i = 0
        · rw [if_pos ((allZero_eq_true_iff z2).2 h2)]
          constructor
          · intro h; exact absurd h (by simp)
          · rintro ⟨_, h, _⟩; exact absurd h2 h
        · rw [if_neg (fun h => h2 ((allZero_eq_true_iff z2).1 h))]
          simp only [Option.map_some', Option.some.injEq, decide_eq_true_eq]
          constructor
          · intro h3
            exact ⟨h1, h2, h, _, rfl, operator_mod_eq_some _ hm, h3⟩
          · rintro ⟨_, _, h', r, hh', hr, h3⟩
            cases hh'
            rw [operator_mod_eq_some _ hm] at hr
            cases hr
            exact h3
  refine ⟨first, fun hm2 ha hase hc hz1 hz2 hH => ?_⟩
  rw [first]
  -- under the bounds the program's coordinate is the exact one
  have coord : ∀ h, ComputeSimpleHash message = some h → ∀ i : Fin 128,
      (wrap (modCoord (wrap (wrap (wrap (wrap (pk.AVector_ i * z1 i) + z2 i)
        - wrap (pk.ASEVector_ i * c i)) + h i)) pk.module_ - c i) = 0 ↔
      specMod (pk.AVector_ i * z1 i + z2 i - pk.ASEVector_ i * c i + h i) pk.module_
        - c i = 0) := by
    intro h hh i
    have hK : (2 : Int) ^ 14 * 2 ^ 14 = 2 ^ 28 := by norm_num
    have hp := mul_range (ha i).1 (ha i).2 (hz1 i).1 (hz1 i).2 (le_refl ((2 : Int) ^ 14))
    have hq := mul_range (hase i).1 (hase i).2 (hc i).1 (hc i).2 (le_refl ((2 : Int) ^ 14))
    rw [hK] at hp hq
    have hz := hz2 i
    have hh' := hH h hh i
    have hci := hc i
    rw [verify_coord_exact hm hm2 (by omega) (by omega) (by omega) (by omega) (by omega)]
    exact sub_eq_zero_exact hm2 ⟨specMod_nonneg _ hm, specMod_le _ hm⟩ (by omega)
  constructor
  · rintro ⟨h1, h2, h, r, hh, hr, h3⟩
    rw [operator_mod_eq_some _ hm] at hr
    cases hr
    exact ⟨h1, h2, h, hh, fun i => (coord h hh i).1 (h3 i)⟩
  · rintro ⟨h1, h2, h, hh, h3⟩
    exact ⟨h1, h2, h, _, hh, operator_mod_eq_some _ hm, fun i => (coord h hh i).2 (h3 i)⟩

/-- C5, amended, at the message `"hello"`, the key with modulus `929` and `ase = a = 1`, and
the signature whose three vectors hold `7`, `3`, `4`: there `a*z1 + z2 - ase*c + h` is `h`,
which differs from `c`, and `Verify` does not return true. -/
theorem Verify_eq_true_iff_witness :
    (0 : Int) < onesKey.module_ ∧
    Verify (ofString "hello") onesKey (constVector 7, constVector 3, constVector 4)
      ≠ some true := by
  refine ⟨by decide, fun hv => ?_⟩
  obtain ⟨-, -, h, r, hh, hr, h3⟩ :=
    (Verify_eq_true_iff (ofString "hello") onesKey (constVector 7) (constVector 3)
      (constVector 4) (by decide)).1.1 hv
  have e1 : (ComputeSimpleHash (ofString "hello")).map (fun h => h 0) = some 1 := by decide
  rw [hh] at e1
  simp only [Option.map_some', Option.some.injEq] at e1
  rw [operator_mod_eq_some _ (by decide)] at hr
  cases hr
  have := h3 0
  simp only [operator_sub, operator_add, operator_mul, onesKey, constVector, e1] at this
  exact absurd this (by decide)

/-! ## Honest signatures when nothing overflows -/

/-- The composite `(x * y + t) % m` of the program is exact when `m <= 2^15` and the three
operands lie in `[-m, m]`: the product is at most `2^30` in absolute value. -/
theorem mul_add_exact {a b y m : Int} (hm : 0 < m) (hm2 : m ≤ 2 ^ 15)
    (ha : -m ≤ a ∧ a ≤ m) (hb : -m ≤ b ∧ b ≤ m) (hy : -m ≤ y ∧ y ≤ m) :
    modCoord (wrap (wrap (a * b) + y)) m = specMod (a * b + y) m := by
  have hp := mul_range ha.1 ha.2 hb.1 hb.2 hm2
  have h30 : (2 : Int) ^ 15 * 2 ^ 15 = 2 ^ 30 := by norm_num
  rw [h30] at hp
  have e1 : wrap (a * b) = a * b := wrap_eq_self (by omega) (by omega)
  rw [e1]
  have e2 : wrap (a * b + y) = a * b + y := wrap_eq_self (by omega) (by omega)
  rw [e2]
  exact modCoord_eq_specMod (by omega) (by omega) hm (by omega)

/-- The composite `(w + h) % m` of the program is exact for `0 <= w <= m <= 2^15` and
`|h| <= 2^29`. -/
theorem add_exact {w h m : Int} (hm : 0 < m) (hm2 : m ≤ 2 ^ 15)
    (hw : 0 ≤ w ∧ w ≤ m) (hh : -2 ^ 29 ≤ h ∧ h ≤ 2 ^ 29) :
    modCoord (wrap (w + h)) m = specMod (w + h) m := by
  have e1 : wrap (w + h) = w + h := wrap_eq_self (by omega) (by omega)
  rw [e1]
  exact modCoord_eq_specMod (by omega) (by omega) hm (by omega)

/-- The aseVector of a key pair with modulus `0 < m <= 2^15` whose `s`, `e`, `a` lie in
`[-m, m]` is the exact reduction of `a*s + e`. -/
theorem aseVector_exact {m : Int} (hm : 0 < m) (hm2 : m ≤ 2 ^ 15) {s e a ase : vector_t}
    (hs : Bounded m s) (he : Bounded m e) (ha : Bounded m a)
    (hase : operator_mod (operator_add (operator_mul a s) e) m = some ase) :
    ∀ i, ase i = specMod (a i * s i + e i) m := by
  intro i
  rw [operator_mod_eq_some _ hm] at hase
  have := congrFun (Option.some.inj hase) i
  rw [← this]
  exact mul_add_exact hm hm2 (ha i) (hs i) (he i)

/-- `Sign` when nothing overflows: for a modulus `1 < m <= 2^15`, a private key whose
vectors lie in `[-m, m]`, draws in the range of the distribution and a digest with
coordinates of absolute value at most `2^29`, `Sign` returns `(c, z1, z2)` with
`w = (a*y1 + y2) mod m`, `c = (w + h) mod m`, `z1 = (s*c + y1) mod m` and
`z2 = (e*c + y2) mod m` over the integers, all with values in `[0, m]`. -/
theorem Sign_exact {message : List Int} {h : vector_t}
    (hh : ComputeSimpleHash message = some h) (sk : RWEPrivateKey) (mt : mt19937)
    (hm : 1 < sk.module_) (hm2 : sk.module_ ≤ 2 ^ 15)
    (hs : Bounded sk.module_ sk.SVector_) (he : Bounded sk.module_ sk.EVector_)
    (ha : Bounded sk.module_ sk.AVector_) (hmt : InRange mt) (hH : Bounded (2 ^ 29) h) :
    ∃ y1 y2 w c z1 z2 : vector_t, Sign message sk mt = some (c, z1, z2) ∧
      (∀ i, w i = specMod (sk.AVector_ i * y1 i + y2 i) sk.module_) ∧
      (∀ i, c i = specMod (w i + h i) sk.module_) ∧
      (∀ i, z1 i = specMod (sk.SVector_ i * c i + y1 i) sk.module_) ∧
      (∀ i, z2 i = specMod (sk.EVector_ i * c i + y2 i) sk.module_) ∧
      (∀ i, (0 ≤ c i ∧ c i ≤ sk.module_) ∧ (0 ≤ z1 i ∧ z1 i ≤ sk.module_) ∧
        (0 ≤ z2 i ∧ z2 i ≤ sk.module_)) := by
  obtain ⟨y1, y2, w, c, z1, z2, hsig, hy1, hy2, hw, hc, hz1, hz2⟩ := Sign_of_hash hh sk mt hm
  have hm0 : 0 < sk.module_ := by omega
  obtain ⟨hd, hd0, hd2⟩ := tdiv_two_bounds hm
  have by1 : ∀ i, -sk.module_ ≤ y1 i ∧ y1 i ≤ sk.module_ := by
    intro i
    have := hmt ⟨-(Int.tdiv sk.module_ 2) + 1, Int.tdiv sk.module_ 2⟩ (0 + i) hd
    rw [← hy1 i] at this
    obtain ⟨t1, t2⟩ := this
    simp only at t1 t2
    constructor <;> omega
  have by2 : ∀ i, -sk.module_ ≤ y2 i ∧ y2 i ≤ sk.module_ := by
    intro i
    have := hmt ⟨-(Int.tdiv sk.module_ 2) + 1, Int.tdiv sk.module_ 2⟩ (128 + i) hd
    rw [← hy2 i] at this
    obtain ⟨t1, t2⟩ := this
    simp only at t1 t2
    constructor <;> omega
  have ew : ∀ i, w i = specMod (sk.AVector_ i * y1 i + y2 i) sk.module_ := fun i => by
    rw [hw i]; exact mul_add_exact hm0 hm2 (ha i) (by1 i) (by2 i)
  have bw : ∀ i, 0 ≤ w i ∧ w i ≤ sk.module_ := fun i => by
    rw [ew i]; exact ⟨specMod_nonneg _ hm0, specMod_le _ hm0⟩
  have ec : ∀ i, c i = specMod (w i + h i) sk.module_ := fun i => by
    rw [hc i]; exact add_exact hm0 hm2 (bw i) (hH i)
  have bc : ∀ i, 0 ≤ c i ∧ c i ≤ sk.module_ := fun i => by
    rw [ec i]; exact ⟨specMod_nonneg _ hm0, specMod_le _ hm0⟩
  have bc' : ∀ i, -sk.module_ ≤ c i ∧ c i ≤ sk.module_ := fun i => by
    have := bc i
    constructor <;> omega
  have ez1 : ∀ i, z1 i = specMod (sk.SVector_ i * c i + y1 i) sk.module_ := fun i => by
    rw [hz1 i]; exact mul_add_exact hm0 hm2 (hs i) (bc' i) (by1 i)
  have ez2 : ∀ i, z2 i = specMod (sk.EVector_ i * c i + y2 i) sk.module_ := fun i => by
    rw [hz2 i]; exact mul_add_exact hm0 hm2 (he i) (bc' i) (by2 i)
  refine ⟨y1, y2, w, c, z1, z2, hsig, ew, ec, ez1, ez2, fun i => ⟨bc i, ?_, ?_⟩⟩
  · rw [ez1 i]; exact ⟨specMod_nonneg _ hm0, specMod_le _ hm0⟩
  · rw [ez2 i]; exact ⟨specMod_nonneg _ hm0, specMod_le _ hm0⟩

/-- A signature for `msg` is rejected for every message whose digest differs from that of
`msg` modulo the modulus at some coordinate, when nothing overflows: modulus
`1 < m <= 2^14`, key vectors in `[-m, m]`, draws in range, digests of absolute value at most
`2^29`. -/
theorem Sign_binds_message (m : Int) (pk : RWEPublicKey) (sk : RWEPrivateKey) (mt : mt19937)
    (msg msg' : List Int) (h h' : vector_t) (hm : 1 < m) (hm2 : m ≤ 2 ^ 14)
    (hpk : pk.module_ = m) (hsk : sk.module_ = m) (ha : pk.AVector_ = sk.AVector_)
    (hase : operator_mod (operator_add (operator_mul sk.AVector_ sk.SVector_) sk.EVector_) m
      = some pk.ASEVector_)
    (hS : Bounded m sk.SVector_) (hE : Bounded m sk.EVector_) (hA : Bounded m sk.AVector_)
    (hmt : InRange mt)
    (hh : ComputeSimpleHash msg = some h) (hh' : ComputeSimpleHash msg' = some h')
    (hH : Bounded (2 ^ 29) h) (hH' : Bounded (2 ^ 29) h')
    (hd : ∃ i, h i % m ≠ h' i % m) :
    ∃ sig, Sign msg sk mt = some sig ∧ Verify msg' pk sig = some false := by
  subst hsk
  have hm0 : 0 < sk.module_ := by omega
  have hm15 : sk.module_ ≤ 2 ^ 15 := by omega
  obtain ⟨y1, y2, w, c, z1, z2, hs, hw, hc, hz1, hz2, hb⟩ :=
    Sign_exact hh sk mt hm hm15 hS hE hA hmt hH
  have hase' := aseVector_exact hm0 hm15 hS hE hA hase
  refine ⟨_, hs, ?_⟩
  rw [Verify_of_hash hh', hpk, operator_mod_eq_some _ hm0]
  split_ifs
  · rfl
  · rfl
  · simp only [Option.map_some', Option.some.injEq, decide_eq_false_iff_not]
    intro hall
    obtain ⟨i, hi⟩ := hd
    have h1 := verify_residue sk.module_ (sk.AVector_ i) (sk.SVector_ i) (sk.EVector_ i)
      (y1 i) (y2 i) (h i) (h' i) (pk.ASEVector_ i) (w i) (c i) (z1 i) (z2 i)
      (hase' i) (hw i) (hc i) (hz1 i) (hz2 i)
    obtain ⟨⟨c0, c1⟩, ⟨p0, p1⟩, ⟨q0, q1⟩⟩ := hb i
    have bA : 0 ≤ pk.ASEVector_ i ∧ pk.ASEVector_ i ≤ sk.module_ := by
      rw [hase' i]; exact ⟨specMod_nonneg _ hm0, specMod_le _ hm0⟩
    have r1 := mul_range (hA i).1 (hA i).2 (by omega : -sk.module_ ≤ z1 i) p1 hm2
    have r2 := mul_range (by omega : -sk.module_ ≤ pk.ASEVector_ i) bA.2
      (by omega : -sk.module_ ≤ c i) c1 hm2
    have h28 : (2 : Int) ^ 14 * 2 ^ 14 = 2 ^ 28 := by norm_num
    rw [h28] at r1 r2
    have hb' := hH' i
    have hx := @verify_coord_exact (sk.AVector_ i) (z1 i) (z2 i) (pk.ASEVector_ i) (c i)
      (h' i) sk.module_ hm0 (by omega : sk.module_ < 2 ^ 31)
      (by omega) (by omega) (by omega) (by omega) (by omega)
    have h2 : specMod (sk.AVector_ i * z1 i + z2 i - pk.ASEVector_ i * c i + h' i) sk.module_
        = c i := by
      have := hall i
      simp only [operator_sub, operator_add, operator_mul] at this
      rw [ha, hx] at this
      have hz := (sub_eq_zero_exact (by omega : sk.module_ < 2 ^ 31)
        ⟨specMod_nonneg _ hm0, specMod_le _ hm0⟩ (by omega)).1 this
      linarith
    rw [h2] at h1
    apply hi
    have h3 : sk.module_ ∣ h' i - h i := by
      have := (Int.modEq_iff_dvd).1 h1
      simpa using this
    exact (Int.modEq_iff_dvd).2 h3

set_option maxRecDepth 100000 in
/-- C3, where it fails: with the modulus `2147483647`, the key pair `s = e = 0`, `a = 1`
(`ase = mod(a*s + e, m) = 0`) and signing draws in range with `y1[1] = y2[1] = -1`, the
digests of the two-`char` messages `[97, 96]` (an `a` and a grave accent) and `[97, 98]`
(`"ab"`) are `1` and `3` at coordinate `1`, which differ modulo the modulus, and yet the
signature of the first is accepted for the second: in `Verify` the sum
`a*z1 + z2 = 2*2147483646` overflows `int`. With the modulus `1 > 0`, `Sign` returns no
signature at all, since the range `[1, 0]` of its distribution is empty. -/
theorem message_binding_overflow :
    InRange (sourceOf bindingDraws) ∧
    maxPublicKey.module_ = maxPrivateKey.module_ ∧
    maxPublicKey.AVector_ = maxPrivateKey.AVector_ ∧
    (operator_mod (operator_add (operator_mul maxPrivateKey.AVector_ maxPrivateKey.SVector_)
      maxPrivateKey.EVector_) maxPrivateKey.module_).map (fun v => decide (∀ i, v i
        = maxPublicKey.ASEVector_ i)) = some true ∧
    (ComputeSimpleHash [97, 96]).map (fun h => h 1) = some 1 ∧
    (ComputeSimpleHash [97, 98]).map (fun h => h 1) = some 3 ∧
    (1 : Int) % 2147483647 ≠ 3 % 2147483647 ∧
    (Sign [97, 96] maxPrivateKey (sourceOf bindingDraws)).bind
      (Verify [97, 98] maxPublicKey) = some true ∧
    Sign (ofString "hello") ⟨1, constVector 0, constVector 0, constVector 1⟩
      (sourceOf bindingDraws) = none := by
  refine ⟨InRange_sourceOf _, rfl, rfl, by decide, by decide, by decide, by decide,
    by decide, ?_⟩
  exact Sign_eq_none _ _ _ (by decide)

/-- C3, amended: for every modulus `1 < m <= 2^14`, every key pair with
`ase = mod(a*s + e, m)` whose private vectors lie in `[-m, m]`, every signing draws in the
range of the distribution and every two messages whose digests have coordinates of absolute
value at most `2^29` and differ modulo `m` at some coordinate, `Sign` returns a signature
for the first message and `Verify` returns false on it for the second; in particular, with
modulus `929`, a signature of `"hello"` is rejected for `"world"`, for every such key pair
and every such draws. -/
theorem message_binding :
    (∀ (m : Int) (pk : RWEPublicKey) (sk : RWEPrivateKey) (mt : mt19937)
      (msg msg' : List Int) (h h' : vector_t), 1 < m → m ≤ 2 ^ 14 →
      pk.module_ = m → sk.module_ = m → pk.AVector_ = sk.AVector_ →
      operator_mod (operator_add (operator_mul sk.AVector_ sk.SVector_) sk.EVector_) m
        = some pk.ASEVector_ →
      Bounded m sk.SVector_ → Bounded m sk.EVector_ → Bounded m sk.AVector_ →
      InRange mt →
      ComputeSimpleHash msg = some h → ComputeSimpleHash msg' = some h' →
      Bounded (2 ^ 29) h → Bounded (2 ^ 29) h' →
      (∃ i, h i % m ≠ h' i % m) →
      ∃ sig, Sign msg sk mt = some sig ∧ Verify msg' pk sig = some false) ∧
    (∀ (pk : RWEPublicKey) (sk : RWEPrivateKey) (mt : mt19937),
      pk.module_ = 929 → sk.module_ = 929 → pk.AVector_ = sk.AVector_ →
      operator_mod (operator_add (operator_mul sk.AVector_ sk.SVector_) sk.EVector_) 929
        = some pk.ASEVector_ →
      Bounded 929 sk.SVector_ → Bounded 929 sk.EVector_ → Bounded 929 sk.AVector_ →
      InRange mt →
      ∃ sig, Sign (ofString "hello") sk mt = some sig ∧
        Verify (ofString "world") pk sig = some false) := by
  refine ⟨fun m pk sk mt msg msg' h h' hm hm2 hpk hsk ha hase hS hE hA hmt hh hh' hH hH' hd =>
    Sign_binds_message m pk sk mt msg msg' h h' hm hm2 hpk hsk ha hase hS hE hA hmt hh hh'
      hH hH' hd, ?_⟩
  intro pk sk mt hpk hsk ha hase hS hE hA hmt
  have e1 : (ComputeSimpleHash (ofString "hello")).map (fun h => h 1) = some 6 := by decide
  have e2 : (ComputeSimpleHash (ofString "world")).map (fun h => h 1) = some 16 := by decide
  obtain ⟨h, hh, hH, -⟩ := digest_bounded_of_short (ofString "hello") (by decide) (by decide)
    (2 ^ 29) (by decide)
  obtain ⟨h', hh', hH', -⟩ := digest_bounded_of_short (ofString "world") (by decide)
    (by decide) (2 ^ 29) (by decide)
  rw [hh] at e1
  rw [hh'] at e2
  simp only [Option.map_some', Option.some.injEq] at e1 e2
  refine Sign_binds_message 929 pk sk mt _ _ h h' (by decide) (by decide) hpk hsk ha hase
    hS hE hA hmt hh hh' hH hH' ⟨1, ?_⟩
  rw [e1, e2]
  decide

/-- C3, amended, at the key pair with modulus `929`, `s = 1`, `e = 0`, `a = 1` and the
in-range engine that follows the constant sequence `2`. -/
theorem message_binding_witness :
    ∃ sig, Sign (ofString "hello") onesPrivateKey (sourceOf (fun _ => 2)) = some sig ∧
      Verify (ofString "world") onesKey sig = some false :=
  message_binding.2 onesKey onesPrivateKey (sourceOf (fun _ => 2)) rfl rfl rfl
    (by rw [operator_mod_eq_some _ (by decide)]; rfl)
    (Bounded_constVector (by decide) (by decide)) (Bounded_constVector (by decide) (by decide))
    (Bounded_constVector (by decide) (by decide)) (InRange_sourceOf _)

/-! ## Completeness when nothing overflows -/

/-- Honest signatures verify when nothing overflows: for a modulus `1 < m <= 2^15`, a key
pair with `ase = mod(a*s + e, m)`, `s` and `e` in `[-m, m]` and `a` in `[0, m]`, draws in
range, and a message whose digest is defined with coordinates in `[0, 2^29]`, `Sign` returns
a signature, the verification equation holds at every coordinate, and `Verify` accepts
unless `z1` or `z2` is the all-zero vector. -/
theorem Sign_verifies (m : Int) (pk : RWEPublicKey) (sk : RWEPrivateKey) (mt : mt19937)
    (msg : List Int) (h : vector_t) (hm : 1 < m) (hm2 : m ≤ 2 ^ 15)
    (hpk : pk.module_ = m) (hsk : sk.module_ = m) (ha : pk.AVector_ = sk.AVector_)
    (hase : operator_mod (operator_add (operator_mul sk.AVector_ sk.SVector_) sk.EVector_) m
      = some pk.ASEVector_)
    (hS : Bounded m sk.SVector_) (hE : Bounded m sk.EVector_)
    (hA : ∀ i, 0 ≤ sk.AVector_ i ∧ sk.AVector_ i ≤ m) (hmt : InRange mt)
    (hh : ComputeSimpleHash msg = some h) (hH : ∀ i, 0 ≤ h i ∧ h i ≤ 2 ^ 29) :
    ∃ c z1 z2, Sign msg sk mt = some (c, z1, z2) ∧
      (∃ r, operator_mod (operator_add (operator_sub (operator_add
          (operator_mul pk.AVector_ z1) z2) (operator_mul pk.ASEVector_ c)) h) m = some r ∧
        ∀ i, operator_sub r c i = 0) ∧
      Verify msg pk (c, z1, z2) = some (!allZero z1 && !allZero z2) := by
  subst hsk
  have hm0 : 0 < sk.module_ := by omega
  have hA' : Bounded sk.module_ sk.AVector_ := fun i => by
    have := hA i
    constructor <;> omega
  have hH' : Bounded (2 ^ 29) h := fun i => by
    have := hH i
    constructor <;> omega
  obtain ⟨y1, y2, w, c, z1, z2, hs, hw, hc, hz1, hz2, hb⟩ :=
    Sign_exact hh sk mt hm hm2 hS hE hA' hmt hH'
  have hase' := aseVector_exact hm0 hm2 hS hE hA' hase
  have key : ∀ i, operator_sub (fun i => modCoord (operator_add (operator_sub (operator_add
      (operator_mul pk.AVector_ z1) z2) (operator_mul pk.ASEVector_ c)) h i) sk.module_)
      c i = 0 := by
    intro i
    obtain ⟨⟨c0, c1⟩, ⟨p0, p1⟩, ⟨q0, q1⟩⟩ := hb i
    have bA : 0 ≤ pk.ASEVector_ i ∧ pk.ASEVector_ i ≤ sk.module_ := by
      rw [hase' i]; exact ⟨specMod_nonneg _ hm0, specMod_le _ hm0⟩
    have r1 := mul_range (hA' i).1 (hA' i).2 (by omega : -sk.module_ ≤ z1 i) p1 hm2
    have r2 := mul_range (by omega : -sk.module_ ≤ pk.ASEVector_ i) bA.2
      (by omega : -sk.module_ ≤ c i) c1 hm2
    have n1 : 0 ≤ sk.AVector_ i * z1 i := mul_nonneg (hA i).1 p0
    have n2 : 0 ≤ pk.ASEVector_ i * c i := mul_nonneg bA.1 c0
    have h30 : (2 : Int) ^ 15 * 2 ^ 15 = 2 ^ 30 := by norm_num
    rw [h30] at r1 r2
    have hb' := hH i
    have hx := @verify_coord_exact (sk.AVector_ i) (z1 i) (z2 i) (pk.ASEVector_ i) (c i)
      (h i) sk.module_ hm0 (by omega : sk.module_ < 2 ^ 31)
      (by omega) (by omega) (by omega) (by omega) (by omega)
    simp only [operator_sub, operator_add, operator_mul]
    rw [ha, hx, verify_accepts_coord sk.module_ (sk.AVector_ i) (sk.SVector_ i)
      (sk.EVector_ i) (y1 i) (y2 i) (h i) (pk.ASEVector_ i) (w i) (c i) (z1 i) (z2 i) hm0
      (hA i).1 (hH i).1 (hase' i) (hw i) (hc i) (hz1 i) (hz2 i), sub_self]
    decide
  refine ⟨c, z1, z2, hs, ⟨_, operator_mod_eq_some _ hm0, key⟩, ?_⟩
  rw [Verify_of_hash hh, hpk, operator_mod_eq_some _ hm0]
  split_ifs with h1 h2
  · simp [h1]
  · simp [h1, h2]
  · simp only [Option.map_some', h1, h2, Bool.not_false, Bool.and_self, Option.some.injEq,
      decide_eq_true_eq]
    exact key

/-- Completeness on well-formed text when nothing overflows: for a modulus
`1 < m <= 2^15`, a key pair generated from an engine whose draws stay in range, signing
draws in range, and a message whose `char` values lie in `0 .. 255` (length at most `2^24`),
`Sign` returns a signature and `Verify` accepts it unless `z1` or `z2` is the all-zero
vector. -/
theorem GenerateKeyPair_Sign_verifies (m : Int) (hm : 1 < m) (hm2 : m ≤ 2 ^ 15)
    (mt mt' : mt19937) (hmt : InRange mt) (hmt' : InRange mt') (msg : List Int)
    (hch : ∀ ch ∈ msg, 0 ≤ ch ∧ ch ≤ 255) (hlen : msg.length ≤ 2 ^ 24) :
    ∃ pk sk c z1 z2, GenerateKeyPair m mt = some (pk, sk) ∧
      Sign msg sk mt' = some (c, z1, z2) ∧
      Verify msg pk (c, z1, z2) = some (!allZero z1 && !allZero z2) := by
  obtain ⟨h, hh, hform⟩ := ComputeSimpleHash_eq_digestSpec msg hch (by omega)
  have hH : ∀ i, 0 ≤ h i ∧ h i ≤ 2 ^ 29 := by
    intro i
    have := digestSum_bounds msg 0 i (fun c hc => (hch c hc).1)
    rw [hform i]
    unfold digestSpec
    constructor <;> omega
  have hm0 : 0 < m := by omega
  obtain ⟨hd, hd0, hd2⟩ := tdiv_two_bounds hm
  have hr : ∀ k, -m ≤ mt ⟨-(Int.tdiv m 2) + 1, Int.tdiv m 2⟩ k ∧
      mt ⟨-(Int.tdiv m 2) + 1, Int.tdiv m 2⟩ k ≤ m := by
    intro k
    obtain ⟨t1, t2⟩ := hmt ⟨-(Int.tdiv m 2) + 1, Int.tdiv m 2⟩ k hd
    simp only at t1 t2
    constructor <;> omega
  obtain ⟨c, z1, z2, hs, -, hv⟩ := Sign_verifies m
    (RWEPublicKey.mk m
      (fun i => modCoord (wrap (wrap
        (mt ⟨1, m⟩ (256 + i) * mt ⟨-(Int.tdiv m 2) + 1, Int.tdiv m 2⟩ (0 + i))
          + mt ⟨-(Int.tdiv m 2) + 1, Int.tdiv m 2⟩ (128 + i))) m)
      (fun i => mt ⟨1, m⟩ (256 + i)))
    (RWEPrivateKey.mk m
      (fun i => mt ⟨-(Int.tdiv m 2) + 1, Int.tdiv m 2⟩ (0 + i))
      (fun i => mt ⟨-(Int.tdiv m 2) + 1, Int.tdiv m 2⟩ (128 + i))
      (fun i => mt ⟨1, m⟩ (256 + i)))
    mt' msg h hm hm2 rfl rfl rfl
    (by rw [operator_mod_eq_some _ hm0]; rfl)
    (fun i => hr _) (fun i => hr _)
    (fun i => by
      obtain ⟨t1, t2⟩ := hmt ⟨1, m⟩ (256 + i) hm.le
      simp only at t1 t2
      show (0 : Int) ≤ mt ⟨1, m⟩ (256 + i) ∧ mt ⟨1, m⟩ (256 + i) ≤ m
      constructor <;> omega)
    hmt' hh hH
  exact ⟨_, _, c, z1, z2, GenerateKeyPair_eq_some m hm mt, hs, hv⟩

/-- The signature of a message with digest `h` when nothing overflows (modulus
`1 < m <= 2^15`, key vectors in `[-m, m]`, draws in range, `|h| <= 2^29`): every coordinate
of `c`, `z1` and `z2` lies in `[0, m]`, and `c[i] < m` wherever `h[i] >= 0`. -/
theorem Sign_reduced (m : Int) (sk : RWEPrivateKey) (mt : mt19937) (msg : List Int)
    (h : vector_t) (hm : 1 < m) (hm2 : m ≤ 2 ^ 15) (hsk : sk.module_ = m)
    (hS : Bounded m sk.SVector_) (hE : Bounded m sk.EVector_) (hA : Bounded m sk.AVector_)
    (hmt : InRange mt) (hh : ComputeSimpleHash msg = some h) (hH : Bounded (2 ^ 29) h) :
    ∃ c z1 z2, Sign msg sk mt = some (c, z1, z2) ∧ ∀ i,
      (0 ≤ z1 i ∧ z1 i ≤ m) ∧ (0 ≤ z2 i ∧ z2 i ≤ m) ∧ (0 ≤ c i ∧ c i ≤ m) ∧
      (0 ≤ h i → c i < m) := by
  subst hsk
  have hm0 : 0 < sk.module_ := by omega
  obtain ⟨y1, y2, w, c, z1, z2, hs, hw, hc, -, -, hb⟩ :=
    Sign_exact hh sk mt hm hm2 hS hE hA hmt hH
  refine ⟨c, z1, z2, hs, fun i => ⟨(hb i).2.1, (hb i).2.2, (hb i).1, ?_⟩⟩
  intro h0
  have hw0 : 0 ≤ w i := by rw [hw i]; exact specMod_nonneg _ hm0
  rw [hc i]
  exact specMod_lt_of_nonneg (by omega) hm0

set_option maxRecDepth 100000 in
/-- With modulus `7`, the key `s = e = 0`, `a = -2`, the empty message and the draws
`y1 = -2`, `y2 = 2`, the honest signature has non-zero `z1` and `z2` and is rejected. -/
theorem negative_aVector_rejected :
    (Sign [] negativePrivateKey (sourceOf negativeDraws)).bind (fun sig =>
      (Verify [] negativePublicKey sig).map (fun b => (b, allZero sig.2.1, allZero sig.2.2)))
      = some (false, false, false) := by
  decide

set_option maxRecDepth 100000 in
/-- C16, where its second half fails: with the modulus `65000`, the key pair `s = 0`,
`e = -1`, `a = 1` (so `ase = mod(a*s + e, m) = 64999` and the aVector is non-negative), the
message `"hello"` (non-negative digest) and the signing draws `y1 = 1`, `y2 = -3` in range,
the honest signature has `c[0] = 64999`; in `Verify` the product `ase*c = 64999 * 64999`
overflows `int`, the vector `mod(a*z1 + z2 - ase*c + h, m) - c` is `-37704` at coordinate
`0`, and `Verify` returns false. -/
theorem completeness_overflow :
    (1 : Int) < 65000 ∧ wideningPrivateKey.module_ = 65000 ∧
    wideningPublicKey.module_ = 65000 ∧
    wideningPublicKey.AVector_ = wideningPrivateKey.AVector_ ∧
    (operator_mod (operator_add (operator_mul wideningPrivateKey.AVector_
      wideningPrivateKey.SVector_) wideningPrivateKey.EVector_) 65000).map
        (fun v => decide (∀ i, v i = wideningPublicKey.ASEVector_ i)) = some true ∧
    (∀ i, 0 ≤ wideningPrivateKey.AVector_ i) ∧
    (ComputeSimpleHash (ofString "hello")).map (fun h => decide (∀ i, 0 ≤ h i)) = some true ∧
    InRange (sourceOf wideningDraws) ∧
    (Sign (ofString "hello") wideningPrivateKey (sourceOf wideningDraws)).map
      (fun sig => (sig.1 0, sig.2.1 0, sig.2.2 0)) = some (64999, 1, 64998) ∧
    ((Sign (ofString "hello") wideningPrivateKey (sourceOf wideningDraws)).bind fun sig =>
      (ComputeSimpleHash (ofString "hello")).bind fun h =>
        (operator_mod (operator_add (operator_sub (operator_add
          (operator_mul wideningPublicKey.AVector_ sig.2.1) sig.2.2)
          (operator_mul wideningPublicKey.ASEVector_ sig.1)) h) 65000).map
          fun r => operator_sub r sig.1 0) = some (-37704) ∧
    (Sign (ofString "hello") wideningPrivateKey (sourceOf wideningDraws)).bind
      (Verify (ofString "hello") wideningPublicKey) = some false := by
  refine ⟨by decide, rfl, rfl, rfl, by decide, fun _ => by show (0 : Int) ≤ 1; decide,
    by decide, InRange_sourceOf _, by decide, by decide, by decide⟩

/-- C16, amended: there are a modulus `m > 1`, a private key whose aVector has a negative
coordinate within `[-(m/2)+1, m/2]`, the matching public key, a message and signing draws in
range such that `Sign` returns a signature with non-zero `z1` and `z2` which `Verify` rejects
(`m = 7`, empty message, `s = e = 0`, `a = -2`, `y1 = -2`, `y2 = 2`); whereas for every
modulus `1 < m <= 2^15`, every key pair with `ase = mod(a*s + e, m)`, `s` and `e` in
`[-m, m]` and `a` in `[0, m]`, every signing draws in range and every message whose digest has
coordinates in `[0, 2^29]`, `Sign` returns a signature for which the verification equation
`mod(a*z1 + z2 - ase*c + h, m) - c = 0` holds at every coordinate. -/
theorem completeness_needs_nonneg_aVector :
    (∃ (m : Int) (sk : RWEPrivateKey) (pk : RWEPublicKey) (message : List Int) (mt : mt19937),
      1 < m ∧ sk.module_ = m ∧ pk.module_ = m ∧ pk.AVector_ = sk.AVector_ ∧
      operator_mod (operator_add (operator_mul sk.AVector_ sk.SVector_) sk.EVector_) m
        = some pk.ASEVector_ ∧
      (∃ i, sk.AVector_ i < 0) ∧
      (∀ i, -(Int.tdiv m 2) + 1 ≤ sk.AVector_ i ∧ sk.AVector_ i ≤ Int.tdiv m 2) ∧
      InRange mt ∧
      ∃ c z1 z2, Sign message sk mt = some (c, z1, z2) ∧
        (¬ ∀ i, z1 i = 0) ∧ (¬ ∀ i, z2 i = 0) ∧
        Verify message pk (c, z1, z2) = some false) ∧
    (∀ (m : Int) (pk : RWEPublicKey) (sk : RWEPrivateKey) (mt : mt19937)
      (message : List Int) (h : vector_t), 1 < m → m ≤ 2 ^ 15 →
      pk.module_ = m → sk.module_ = m → pk.AVector_ = sk.AVector_ →
      operator_mod (operator_add (operator_mul sk.AVector_ sk.SVector_) sk.EVector_) m
        = some pk.ASEVector_ →
      Bounded m sk.SVector_ → Bounded m sk.EVector_ →
      (∀ i, 0 ≤ sk.AVector_ i ∧ sk.AVector_ i ≤ m) → InRange mt →
      ComputeSimpleHash message = some h → (∀ i, 0 ≤ h i ∧ h i ≤ 2 ^ 29) →
      ∃ c z1 z2, Sign message sk mt = some (c, z1, z2) ∧
        ∃ r, operator_mod (operator_add (operator_sub (operator_add
            (operator_mul pk.AVector_ z1) z2) (operator_mul pk.ASEVector_ c)) h) m = some r ∧
          ∀ i, operator_sub r c i = 0) := by
  constructor
  · refine ⟨7, negativePrivateKey, negativePublicKey, [], sourceOf negativeDraws,
      by decide, rfl, rfl, rfl, ?_, ⟨0, by decide⟩, ?_, InRange_sourceOf _, ?_⟩
    · rw [operator_mod_eq_some _ (by decide)]; rfl
    · intro i
      show -(Int.tdiv 7 2) + 1 ≤ (-2 : Int) ∧ (-2 : Int) ≤ Int.tdiv 7 2
      decide
    · have e := negative_aVector_rejected
      cases hs : Sign [] negativePrivateKey (sourceOf negativeDraws) with
      | none => rw [hs] at e; exact absurd e (by simp)
      | some sig =>
        obtain ⟨c, z1, z2⟩ := sig
        rw [hs, Option.some_bind] at e
        cases hv : Verify [] negativePublicKey (c, z1, z2) with
        | none => rw [hv] at e; exact absurd e (by simp)
        | some b =>
          rw [hv] at e
          simp only [Option.map_some', Option.some.injEq, Prod.mk.injEq] at e
          obtain ⟨hb, h1, h2⟩ := e
          refine ⟨c, z1, z2, rfl, ?_, ?_, by rw [hv, hb]⟩
          · intro hz
            rw [(allZero_eq_true_iff z1).2 hz] at h1
            exact absurd h1 (by simp)
          · intro hz
            rw [(allZero_eq_true_iff z2).2 hz] at h2
            exact absurd h2 (by simp)
  · intro m pk sk mt message h hm hm2 hpk hsk ha hase hS hE hA hmt hh hH
    obtain ⟨c, z1, z2, hs, heq, -⟩ :=
      Sign_verifies m pk sk mt message h hm hm2 hpk hsk ha hase hS hE hA hmt hh hH
    exact ⟨c, z1, z2, hs, heq⟩

/-- C16, amended, second half, at modulus `929`, the key pair `s = 1`, `e = 0`, `a = 1`, the
empty message and the in-range engine that follows the constant sequence `2`. -/
theorem completeness_needs_nonneg_aVector_witness :
    (1 : Int) < 929 ∧ (929 : Int) ≤ 2 ^ 15 ∧
    (∀ i, 0 ≤ onesPrivateKey.AVector_ i ∧ onesPrivateKey.AVector_ i ≤ 929) ∧
    (∀ i : Fin 128, (0 : Int) ≤ constVector 1 i ∧ constVector 1 i ≤ 2 ^ 29) ∧
    ∃ c z1 z2, Sign [] onesPrivateKey (sourceOf (fun _ => 2)) = some (c, z1, z2) ∧
      ∃ r, operator_mod (operator_add (operator_sub (operator_add
          (operator_mul onesKey.AVector_ z1) z2) (operator_mul onesKey.ASEVector_ c))
          (constVector 1)) 929 = some r ∧
        ∀ i, operator_sub r c i = 0 :=
  ⟨by decide, by decide, fun _ => by show (0 : Int) ≤ 1 ∧ (1 : Int) ≤ 929; decide,
    fun _ => by show (0 : Int) ≤ 1 ∧ (1 : Int) ≤ 2 ^ 29; decide,
    completeness_needs_nonneg_aVector.2 929 onesKey onesPrivateKey (sourceOf (fun _ => 2)) []
      (constVector 1) (by decide) (by decide) rfl rfl rfl
      (by rw [operator_mod_eq_some _ (by decide)]; rfl)
      (Bounded_constVector (by decide) (by decide))
      (Bounded_constVector (by decide) (by decide))
      (fun _ => by show (0 : Int) ≤ 1 ∧ (1 : Int) ≤ 929; decide) (InRange_sourceOf _) rfl
      (fun _ => by show (0 : Int) ≤ 1 ∧ (1 : Int) ≤ 2 ^ 29; decide)⟩

end FakeCrypto
